import Mathlib

/-!
Verification of the AnalytixHub persistence-and-scoring core.

The repository stores boolean feature sets of software services in a SQL store
(SQLite or PostgreSQL behind a common `DatabaseManager` abstraction) and
produces weighted rankings and recommendations.  This file gives a shallow
embedding of the relevant operations of `src/database.py`,
`src/ranking_system.py` and `src/api_server.py`:

* SQL tables become Lean lists of row structures (in insertion order, with
  the autoincrement counter made explicit);
* Python dicts become insertion-ordered association lists with `alistSet`
  mirroring `d[k] = v` (update in place, or append when the key is fresh);
* REAL columns and Python floats become `Rat` (all values handled by the
  claims are exactly representable);
* the `get_connection` context manager becomes `withConnection`, which
  commits the body's final state on success and restores the initial state
  (rollback) while re-raising the error on failure;
* fallible statement sequences are modelled by an explicit statement counter
  plus an optional injected failure index, so that "some statement in the
  middle fails" is a concrete input.
-/

namespace AnalytixHub

/-! ## Association-list helpers (Python dict semantics) -/

/-- Lookup in an insertion-ordered association list (Python `d.get(k)`). -/
def alistGet? (l : List (String × β)) (k : String) : Option β :=
  (l.find? (fun p => p.1 = k)).map (·.2)

/-- Python `d[k] = v`: replace the value in place if `k` is present,
    otherwise append the binding at the end. -/
def alistSet (l : List (String × β)) (k : String) (v : β) : List (String × β) :=
  match l with
  | [] => [(k, v)]
  | p :: ps => if p.1 = k then (k, v) :: ps else p :: alistSet ps k v

/-- Python `features.get(f, False)`. -/
def lookupBool (features : List (String × Bool)) (f : String) : Bool :=
  (alistGet? features f).getD false

theorem alistGet?_set_self (l : List (String × β)) (k : String) (v : β) :
    alistGet? (alistSet l k v) k = some v := by
  induction l with
  | nil => simp [alistGet?, alistSet, List.find?]
  | cons p ps ih =>
    by_cases h : p.1 = k
    · simp [alistSet, h, alistGet?, List.find?]
    · simp only [alistSet, h, if_false]
      simpa [alistGet?, List.find?, h] using ih

theorem alistGet?_set_ne (l : List (String × β)) (k k' : String) (v : β)
    (h : k' ≠ k) : alistGet? (alistSet l k v) k' = alistGet? l k' := by
  induction l with
  | nil => simp [alistGet?, alistSet, List.find?, Ne.symm h]
  | cons p ps ih =>
    by_cases hp : p.1 = k
    · subst hp
      simp [alistSet, alistGet?, List.find?, Ne.symm h]
    · by_cases hpk : p.1 = k'
      · simp [alistSet, hp, alistGet?, List.find?, hpk, h]
      · simp only [alistSet, hp, if_false]
        simpa [alistGet?, List.find?, hpk] using ih

/-! ## Generic stable insertion sort

`sortBy le` models Python's stable `list.sort`: an element is inserted after
every already-placed element it does not strictly have to precede. -/

/-- Insert `x` after the longest prefix of elements `y` with `le y x`. -/
def insertSorted (le : α → α → Bool) (x : α) : List α → List α
  | [] => [x]
  | y :: ys => if le y x then y :: insertSorted le x ys else x :: y :: ys

def sortBy (le : α → α → Bool) (l : List α) : List α :=
  l.foldl (fun acc x => insertSorted le x acc) []

theorem insertSorted_perm (le : α → α → Bool) (x : α) (l : List α) :
    List.Perm (insertSorted le x l) (x :: l) := by
  induction l with
  | nil => exact List.Perm.refl _
  | cons y ys ih =>
    by_cases h : le y x
    · simp only [insertSorted, h, if_true]
      exact (List.Perm.cons y ih).trans (List.Perm.swap x y ys)
    · simp [insertSorted, h]

theorem sortBy_aux_perm (le : α → α → Bool) (l acc : List α) :
    List.Perm (l.foldl (fun acc x => insertSorted le x acc) acc) (l ++ acc) := by
  induction l generalizing acc with
  | nil => simp
  | cons x xs ih =>
    simp only [List.foldl_cons, List.cons_append]
    refine ((ih _).trans ?_)
    exact (List.Perm.append_left xs (insertSorted_perm le x acc)).trans List.perm_middle

theorem sortBy_perm (le : α → α → Bool) (l : List α) : List.Perm (sortBy le l) l := by
  simpa using sortBy_aux_perm le l []

theorem insertSorted_pairwise (le : α → α → Bool)
    (htot : ∀ a b, le a b = true ∨ le b a = true)
    (htrans : ∀ a b c, le a b = true → le b c = true → le a c = true)
    (x : α) (l : List α) (hl : l.Pairwise (fun a b => le a b = true)) :
    (insertSorted le x l).Pairwise (fun a b => le a b = true) := by
  induction l with
  | nil => simp [insertSorted]
  | cons y ys ih =>
    rcases hl with _ | ⟨hy, hys⟩
    by_cases h : le y x
    · simp only [insertSorted, h, if_true]
      refine List.Pairwise.cons ?_ (ih hys)
      intro z hz
      rcases List.mem_cons.mp ((insertSorted_perm le x ys).mem_iff.mp hz) with hz | hz
      · subst hz; exact h
      · exact hy z hz
    · simp only [insertSorted, h, if_false]
      have hxy : le x y = true := by
        rcases htot x y with h' | h'
        · exact h'
        · exact absurd h' h
      refine List.Pairwise.cons ?_ (List.Pairwise.cons hy hys)
      intro z hz
      rcases List.mem_cons.mp hz with hz | hz
      · subst hz; exact hxy
      · exact htrans x y z hxy (hy z hz)

theorem sortBy_pairwise (le : α → α → Bool)
    (htot : ∀ a b, le a b = true ∨ le b a = true)
    (htrans : ∀ a b c, le a b = true → le b c = true → le a c = true)
    (l : List α) : (sortBy le l).Pairwise (fun a b => le a b = true) := by
  have main : ∀ (l acc : List α), acc.Pairwise (fun a b => le a b = true) →
      (l.foldl (fun acc x => insertSorted le x acc) acc).Pairwise
        (fun a b => le a b = true) := by
    intro l
    induction l with
    | nil => intro acc hacc; simpa using hacc
    | cons x xs ih =>
      intro acc hacc
      exact ih _ (insertSorted_pairwise le htot htrans x acc hacc)
  exact main l [] (by simp)

/-! ## The weighted scorer (`DatabaseManager.calculate_rankings`, scoring loop)

```python
score = 0.0
for feature_name, weight in weights.items():
    if features.get(feature_name, False):
        score += weight
```
-/

def computeScore (weights : List (String × Rat)) (features : List (String × Bool)) : Rat :=
  weights.foldl (fun s fw => if lookupBool features fw.1 then s + fw.2 else s) 0

theorem computeScore_eq_sum (weights : List (String × Rat))
    (features : List (String × Bool)) :
    computeScore weights features
      = ((weights.filter (fun fw => lookupBool features fw.1)).map (·.2)).sum := by
  have main : ∀ (ws : List (String × Rat)) (acc : Rat),
      ws.foldl (fun s fw => if lookupBool features fw.1 then s + fw.2 else s) acc
        = acc + ((ws.filter (fun fw => lookupBool features fw.1)).map (·.2)).sum := by
    intro ws
    induction ws with
    | nil => intro acc; simp
    | cons w rest ih =>
      intro acc
      by_cases h : lookupBool features w.1
      · simp [h, ih, add_assoc]
      · simp [h, ih]
  simpa using main weights 0

/-! ## Data model (tables of `init_database`, rows in insertion order) -/

structure ServiceRow where
  id : Nat
  name : String
  url : String
  pricing : Option String
  platforms : List String
  categoryId : Option Nat
  lastUpdated : Nat
deriving DecidableEq

structure FeatureRow where
  serviceId : Nat
  featureName : String
  isAvailable : Bool
deriving DecidableEq

structure AdditionalFeatureRow where
  serviceId : Nat
  featureName : String
deriving DecidableEq

structure WeightRow where
  context : String
  featureName : String
  weight : Rat
deriving DecidableEq

structure RankingRow where
  context : String
  serviceId : Nat
  rank : Nat
  score : Rat
  calculatedAt : Nat
deriving DecidableEq

structure CategoryRow where
  id : Nat
  name : String
  slug : String
deriving DecidableEq

structure DBState where
  services : List ServiceRow
  features : List FeatureRow
  additionalFeatures : List AdditionalFeatureRow
  featureWeights : List WeightRow
  rankings : List RankingRow
  categories : List CategoryRow
  nextServiceId : Nat
deriving DecidableEq

/-- The `ServiceFeatures` dataclass of `base_scraper.py`. -/
structure ServiceFeatures where
  name : String
  url : String
  free_tier : Bool
  pricing : Option String
  platforms : List String
  collaboration : Bool
  reminders : Bool
  due_dates : Bool
  tags_labels : Bool
  subtasks : Bool
  attachments : Bool
  offline_mode : Bool
  calendar_view : Bool
  integrations : Bool
  api_available : Bool
  additional_features : List String
deriving DecidableEq

/-- The `feature_map` dict built inside `save_service_features`, in source order. -/
def featureMapList (f : ServiceFeatures) : List (String × Bool) :=
  [("free_tier", f.free_tier), ("collaboration", f.collaboration),
   ("reminders", f.reminders), ("due_dates", f.due_dates),
   ("tags_labels", f.tags_labels), ("subtasks", f.subtasks),
   ("attachments", f.attachments), ("offline_mode", f.offline_mode),
   ("calendar_view", f.calendar_view), ("integrations", f.integrations),
   ("api_available", f.api_available)]

/-- The `all_features` fallback list of `calculate_rankings`. -/
def coreFeatureNames : List String :=
  ["free_tier", "collaboration", "reminders", "due_dates", "tags_labels",
   "subtasks", "attachments", "offline_mode", "calendar_view", "integrations",
   "api_available"]

/-- Uniqueness constraints of the schema: `services.id` is the primary key,
    `services.name` is UNIQUE, ids stay below the autoincrement counter, and
    `features` has UNIQUE(service_id, feature_name). -/
def Wellformed (db : DBState) : Prop :=
  (db.services.map (·.id)).Nodup ∧
  (db.services.map (·.name)).Nodup ∧
  (∀ s ∈ db.services, s.id < db.nextServiceId) ∧
  (db.features.map (fun fr => (fr.serviceId, fr.featureName))).Nodup

instance (db : DBState) : Decidable (Wellformed db) := by
  unfold Wellformed; infer_instance

/-! ## Primitive SQL statements of `save_service_features` and friends -/

/-- `UPDATE services SET url=?, pricing=?, platforms=?, last_updated=? WHERE id=?`. -/
def updateServiceStmt (sid : Nat) (f : ServiceFeatures) (now : Nat) (db : DBState) : DBState :=
  { db with services := db.services.map fun s =>
      if s.id = sid then
        { s with url := f.url, pricing := f.pricing, platforms := f.platforms,
                 lastUpdated := now }
      else s }

/-- `INSERT INTO services (name, url, pricing, platforms, last_updated) VALUES (...)`;
    the autoincrement id column assigns `nextServiceId`. -/
def insertServiceStmt (f : ServiceFeatures) (now : Nat) (db : DBState) : DBState :=
  { db with
      services := db.services ++
        [⟨db.nextServiceId, f.name, f.url, f.pricing, f.platforms, none, now⟩],
      nextServiceId := db.nextServiceId + 1 }

/-- Upsert of one `(service_id, feature_name) → is_available` row
    (`INSERT OR REPLACE` / `ON CONFLICT DO UPDATE`). -/
def upsertFeatureStmt (sid : Nat) (fname : String) (avail : Bool) (db : DBState) : DBState :=
  { db with features :=
      (db.features.filter fun fr => ¬(fr.serviceId = sid ∧ fr.featureName = fname)) ++
      [⟨sid, fname, avail⟩] }

/-- `DELETE FROM additional_features WHERE service_id = ?`. -/
def deleteAdditionalStmt (sid : Nat) (db : DBState) : DBState :=
  { db with additionalFeatures :=
      db.additionalFeatures.filter fun r => r.serviceId ≠ sid }

/-- `INSERT INTO additional_features (service_id, feature_name) VALUES (?, ?)`. -/
def insertAdditionalStmt (sid : Nat) (fname : String) (db : DBState) : DBState :=
  { db with additionalFeatures := db.additionalFeatures ++ [⟨sid, fname⟩] }

/-- Upsert of one `(context, feature_name) → weight` row. -/
def upsertWeightStmt (context fname : String) (weight : Rat) (db : DBState) : DBState :=
  { db with featureWeights :=
      (db.featureWeights.filter fun r => ¬(r.context = context ∧ r.featureName = fname)) ++
      [⟨context, fname, weight⟩] }

/-- Upsert of one `(context, service_id) → (rank, score, calculated_at)` row. -/
def upsertRankingStmt (context : String) (sid rank : Nat) (score : Rat) (now : Nat)
    (db : DBState) : DBState :=
  { db with rankings :=
      (db.rankings.filter fun r => ¬(r.context = context ∧ r.serviceId = sid)) ++
      [⟨context, sid, rank, score, now⟩] }

/-! ## `save_service_features`, successful path -/

/-- The statement sequence after the service row upsert: eleven feature
    upserts, then delete-all / insert-all of the additional features. -/
def saveRest (sid : Nat) (f : ServiceFeatures) (db : DBState) : DBState :=
  let db2 := (featureMapList f).foldl (fun d fb => upsertFeatureStmt sid fb.1 fb.2 d) db
  let db3 := deleteAdditionalStmt sid db2
  f.additional_features.foldl (fun d n => insertAdditionalStmt sid n d) db3

/-- `DatabaseManager.save_service_features` (no statement fails): returns the
    service id and the committed state. -/
def save_service_features (f : ServiceFeatures) (now : Nat) (db : DBState) :
    Nat × DBState :=
  match db.services.find? (fun s => s.name = f.name) with
  | some row => (row.id, saveRest row.id f (updateServiceStmt row.id f now db))
  | none => (db.nextServiceId, saveRest db.nextServiceId f (insertServiceStmt f now db))

/-! ## Read operations -/

/-- `DatabaseManager.get_features_for_service`: dict comprehension over the
    rows for one service. -/
def get_features_for_service (sid : Nat) (db : DBState) : List (String × Bool) :=
  (db.features.filter (fun fr => fr.serviceId = sid)).foldl
    (fun m fr => alistSet m fr.featureName fr.isAvailable) []

/-- `DatabaseManager.get_additional_features`. -/
def get_additional_features (sid : Nat) (db : DBState) : List String :=
  (db.additionalFeatures.filter (fun r => r.serviceId = sid)).map (·.featureName)

/-- `DatabaseManager.get_service_by_name`: `SELECT * FROM services WHERE name = ?`
    then `fetchone`. -/
def get_service_by_name (name : String) (db : DBState) : Option ServiceRow :=
  db.services.find? (fun s => s.name = name)

/-- `ORDER BY name` on service rows. -/
def serviceNameLe (s t : ServiceRow) : Bool := !decide (t.name < s.name)

/-- One row of `get_all_services`: the service annotated with its feature map
    and additional-feature list. -/
structure ServiceOut where
  id : Nat
  name : String
  url : String
  pricing : Option String
  platforms : List String
  categoryId : Option Nat
  features : List (String × Bool)
  additionalFeatures : List String
deriving DecidableEq

def annotateService (db : DBState) (s : ServiceRow) : ServiceOut :=
  ⟨s.id, s.name, s.url, s.pricing, s.platforms, s.categoryId,
   get_features_for_service s.id db, get_additional_features s.id db⟩

/-- `DatabaseManager.get_all_services`.  Note the Python `if category_slug:`
    guard: `None` and the empty string both disable the category filter. -/
def get_all_services (categorySlug : Option String) (db : DBState) : List ServiceOut :=
  match categorySlug with
  | some slug =>
    if slug = "" then (sortBy serviceNameLe db.services).map (annotateService db)
    else
      match db.categories.find? (fun c => c.slug = slug) with
      | some cat =>
          ((sortBy serviceNameLe (db.services.filter
            (fun s => s.categoryId = some cat.id)))).map (annotateService db)
      | none => []
  | none => (sortBy serviceNameLe db.services).map (annotateService db)

/-! ## Feature-comparison matrix (`get_feature_comparison`) -/

/-- `ORDER BY s.name, f.feature_name` on the joined rows. -/
def comparisonRowLe (a b : String × String × Bool) : Bool :=
  decide (a.1 < b.1) || (decide (a.1 = b.1) && !decide (b.2.1 < a.2.1))

/-- The inner join `services s JOIN features f ON s.id = f.service_id`,
    ordered by service name then feature name. -/
def comparisonRows (db : DBState) : List (String × String × Bool) :=
  sortBy comparisonRowLe
    (db.services.flatMap fun s =>
      (db.features.filter (fun fr => fr.serviceId = s.id)).map
        (fun fr => (s.name, fr.featureName, fr.isAvailable)))

/-- The nested-dict construction loop of `get_feature_comparison`. -/
def buildComparison (rows : List (String × String × Bool)) :
    List (String × List (String × Bool)) :=
  rows.foldl
    (fun comp row =>
      alistSet comp row.1
        (alistSet ((alistGet? comp row.1).getD []) row.2.1 row.2.2))
    []

def get_feature_comparison (db : DBState) : List (String × List (String × Bool)) :=
  buildComparison (comparisonRows db)

/-- Lookup of one cell of the nested comparison matrix. -/
def comparisonCell (comp : List (String × List (String × Bool)))
    (name fname : String) : Option Bool :=
  (alistGet? comp name).bind (fun m => alistGet? m fname)

/-! ## Feature weights -/

/-- `DatabaseManager.get_feature_weights`: dict comprehension over the rows of
    one context. -/
def get_feature_weights (context : String) (db : DBState) : List (String × Rat) :=
  (db.featureWeights.filter (fun r => r.context = context)).foldl
    (fun m r => alistSet m r.featureName r.weight) []

/-- `DatabaseManager.set_feature_weights`: delete all rows of the context,
    then upsert each entry of the given vector. -/
def set_feature_weights (context : String) (w : List (String × Rat)) (db : DBState) :
    DBState :=
  w.foldl (fun d fw => upsertWeightStmt context fw.1 fw.2 d)
    { db with featureWeights := db.featureWeights.filter fun r => r.context ≠ context }

/-! ## Ranking engine (`calculate_rankings`) -/

structure ScoreEntry where
  service_id : Nat
  service_name : String
  score : Rat
  rank : Nat
deriving DecidableEq

/-- Weight-vector resolution at the top of `calculate_rankings`.  The Python
    guard is `if weights:`, so `None` and an explicit empty dict both fall
    through to the stored vector, and an empty stored vector falls through to
    the uniform 1.0 fallback over the eleven core features. -/
def resolveWeights (context : String) (weightsArg : Option (List (String × Rat)))
    (db : DBState) : List (String × Rat) × DBState :=
  let stored : List (String × Rat) × DBState :=
    let w := get_feature_weights context db
    if w.isEmpty then (coreFeatureNames.map (fun f => (f, (1 : Rat))), db) else (w, db)
  match weightsArg with
  | some w => if w.isEmpty then stored else (w, set_feature_weights context w db)
  | none => stored

/-- The `LEFT JOIN` of services with features, `ORDER BY s.name`: a service
    with no feature rows contributes a single row with a NULL feature. -/
def rankingJoinRows (db : DBState) : List (Nat × String × Option (String × Bool)) :=
  sortBy (fun a b => !decide (b.2.1 < a.2.1))
    (db.services.flatMap fun s =>
      match db.features.filter (fun fr => fr.serviceId = s.id) with
      | [] => [(s.id, s.name, none)]
      | fs => fs.map fun fr => (s.id, s.name, some (fr.featureName, fr.isAvailable)))

/-- One iteration of the `services_map` grouping loop.  The Python guard
    `if row['feature_name']:` skips both NULL and the empty string. -/
def groupStep (acc : List (Nat × String × List (String × Bool)))
    (row : Nat × String × Option (String × Bool)) :
    List (Nat × String × List (String × Bool)) :=
  let acc1 := if acc.any (fun e => e.1 = row.1) then acc
              else acc ++ [(row.1, row.2.1, [])]
  match row.2.2 with
  | some (fn, b) =>
      if fn = "" then acc1
      else acc1.map fun e => if e.1 = row.1 then (e.1, e.2.1, alistSet e.2.2 fn b) else e
  | none => acc1

def groupServices (rows : List (Nat × String × Option (String × Bool))) :
    List (Nat × String × List (String × Bool)) :=
  rows.foldl groupStep []

/-- `scores.sort(key=lambda x: x['score'], reverse=True)`: descending, stable. -/
def scoreLe (a b : ScoreEntry) : Bool := decide (b.score ≤ a.score)

/-- `for i, item in enumerate(scores, 1): item['rank'] = i`. -/
def assignRanks : Nat → List ScoreEntry → List ScoreEntry
  | _, [] => []
  | i, e :: es => { e with rank := i } :: assignRanks (i + 1) es

/-- `DatabaseManager.calculate_rankings`: resolve weights, left-join and group
    all services, score, sort descending, assign dense ranks, persist. -/
def calculate_rankings (context : String) (weightsArg : Option (List (String × Rat)))
    (now : Nat) (db : DBState) : List ScoreEntry × DBState :=
  let wdb := resolveWeights context weightsArg db
  let scores0 : List ScoreEntry :=
    (groupServices (rankingJoinRows wdb.2)).map
      (fun e => ⟨e.1, e.2.1, computeScore wdb.1 e.2.2, 0⟩)
  let scores := assignRanks 1 (sortBy scoreLe scores0)
  let db2 := scores.foldl
    (fun d e => upsertRankingStmt context e.service_id e.rank e.score now d) wdb.2
  (scores, db2)

/-! ## Stored rankings (`get_rankings`) -/

structure RankOut where
  rank : Nat
  score : Rat
  service_name : String
deriving DecidableEq

/-- `DatabaseManager.get_rankings`: join with services, `ORDER BY r.rank`. -/
def get_rankings (context : String) (db : DBState) : List RankOut :=
  sortBy (fun a b => decide (a.rank ≤ b.rank))
    ((db.rankings.filter (fun r => r.context = context)).flatMap fun r =>
      (db.services.filter (fun s => s.id = r.serviceId)).map
        (fun s => ⟨r.rank, r.score, s.name⟩))

/-! ## Recommendation (`RankingSystem.recommend_service`) -/

structure Recommendation where
  name : String
  score : Rat
  rank : Nat
deriving DecidableEq

/-- A service meets the requirement map iff every required pair matches its
    recorded value, with `features.get(feature, False)` as the default. -/
def meetsRequirements (requirements : List (String × Bool))
    (features : List (String × Bool)) : Bool :=
  requirements.all (fun rq => lookupBool features rq.1 == rq.2)

def recommendLe (a b : Recommendation) : Bool := decide (b.score ≤ a.score)

/-- `RankingSystem.recommend_service`: filter the comparison matrix by the
    requirements, keep services having a ranking row for the context (first
    matching row), sort descending by score. -/
def recommend_service (requirements : List (String × Bool)) (context : String)
    (db : DBState) : List Recommendation :=
  let comparison := get_feature_comparison db
  let scored := comparison.foldl
    (fun acc entry =>
      if meetsRequirements requirements entry.2 then
        match (get_rankings context db).find?
            (fun r => r.service_name = entry.1) with
        | some r => acc ++ [⟨entry.1, r.score, r.rank⟩]
        | none => acc
      else acc)
    []
  sortBy recommendLe scored

/-! ## HTTP layer (`api_server.py`)

`get_comparison` calls `db.get_feature_comparison(category_slug=category)`.
`DatabaseManager.get_feature_comparison` takes no parameter besides `self`,
so under Python calling conventions every such call raises `TypeError`;
the handler's `except` converts any exception into a 500 response. -/

/-- Python-level call to `DatabaseManager.get_feature_comparison` with a list
    of keyword-argument names: the method accepts no keyword argument, so a
    non-empty list raises `TypeError`. -/
def callGetFeatureComparison (kwargs : List String) (db : DBState) :
    Except String (List (String × List (String × Bool))) :=
  match kwargs with
  | [] => .ok (get_feature_comparison db)
  | k :: _ => .error ("TypeError: get_feature_comparison() got an unexpected keyword argument " ++ k)

/-- The `/api/compare` handler: it always passes the keyword argument
    `category_slug` (with value `None` when the query parameter is absent),
    and maps success to 200 and any exception to 500. -/
def api_compare (category : Option String) (db : DBState) :
    Nat × Except String (List (String × List (String × Bool))) :=
  match callGetFeatureComparison ["category_slug"] db with
  | .ok m => (200, .ok m)
  | .error e => (500, .error e)

/-! ## Transactional execution of `save_service_features`

`get_connection` yields a connection, commits on normal completion and rolls
back and re-raises on any exception.  A transaction body is executed
statement by statement; `failAt = some k` injects a storage failure into the
k-th executed statement (0-based), `failAt = none` runs the happy path. -/

structure TxState where
  db : DBState
  counter : Nat
deriving DecidableEq

/-- Execute one write statement; it fails iff the injected failure index is
    the current statement counter. -/
def runStmt (failAt : Option Nat) (f : DBState → DBState) (ts : TxState) :
    Except String TxState :=
  if failAt = some ts.counter then .error "storage failure"
  else .ok ⟨f ts.db, ts.counter + 1⟩

/-- Execute one read statement. -/
def runQuery (failAt : Option Nat) (q : DBState → α) (ts : TxState) :
    Except String (α × TxState) :=
  if failAt = some ts.counter then .error "storage failure"
  else .ok (q ts.db, ⟨ts.db, ts.counter + 1⟩)

/-- Execute a sequence of write statements in order, stopping at the first
    failure. -/
def runStmts (failAt : Option Nat) : List (DBState → DBState) → TxState →
    Except String TxState
  | [], ts => .ok ts
  | f :: fs, ts =>
    match runStmt failAt f ts with
    | .error e => .error e
    | .ok ts' => runStmts failAt fs ts'

/-- `with self.get_connection() as conn:` — commit the body's final state on
    success, restore the entry state (rollback) and re-raise on failure. -/
def withConnection (body : DBState → Except String (α × DBState)) (db : DBState) :
    Except String α × DBState :=
  match body db with
  | .ok (a, db') => (.ok a, db')
  | .error e => (.error e, db)

/-- The statements of `save_service_features` after the service-row upsert:
    eleven feature upserts, then `DELETE FROM additional_features ...`, then
    one insert per additional feature. -/
def saveTail (failAt : Option Nat) (f : ServiceFeatures) (sid : Nat) (ts : TxState) :
    Except String (Nat × TxState) :=
  match runStmts failAt
      ((featureMapList f).map (fun fb => upsertFeatureStmt sid fb.1 fb.2)) ts with
  | .error e => .error e
  | .ok ts3 =>
    match runStmt failAt (deleteAdditionalStmt sid) ts3 with
    | .error e => .error e
    | .ok ts4 =>
      match runStmts failAt (f.additional_features.map (insertAdditionalStmt sid)) ts4 with
      | .error e => .error e
      | .ok ts5 => .ok (sid, ts5)

/-- The body of `save_service_features`: `SELECT id FROM services WHERE name=?`,
    then either the UPDATE or the INSERT of the service row, then the tail. -/
def saveServiceFeaturesBody (failAt : Option Nat) (f : ServiceFeatures) (now : Nat)
    (ts : TxState) : Except String (Nat × TxState) :=
  match runQuery failAt
      (fun db => (db.services.find? (fun s => s.name = f.name)).map (·.id)) ts with
  | .error e => .error e
  | .ok (idOpt, ts1) =>
    match idOpt with
    | some sid =>
      match runStmt failAt (updateServiceStmt sid f now) ts1 with
      | .error e => .error e
      | .ok ts2 => saveTail failAt f sid ts2
    | none =>
      let sid := ts1.db.nextServiceId
      match runStmt failAt (insertServiceStmt f now) ts1 with
      | .error e => .error e
      | .ok ts2 => saveTail failAt f sid ts2

/-- `save_service_features` under the transaction discipline of
    `get_connection`, with an optional injected statement failure. -/
def saveServiceFeaturesTx (failAt : Option Nat) (f : ServiceFeatures) (now : Nat)
    (db : DBState) : Except String Nat × DBState :=
  withConnection
    (fun db0 =>
      match saveServiceFeaturesBody failAt f now ⟨db0, 0⟩ with
      | .ok (sid, ts) => .ok (sid, ts.db)
      | .error e => .error e)
    db

/-! ## Claim C2: the weighted scorer -/

/-- C2: for every service feature map and every weight vector, the score
computed by `calculate_rankings` equals the sum of `weight[f]` over exactly
those features `f` present in the weight vector and marked true in the
service's feature map; features absent from the weight vector contribute 0,
and features false or unrecorded for the service contribute 0 regardless of
weight.  For weights `{a: 2.0, b: 1.0}`: `a=true,b=false` scores 2.0;
`a=false,b=true` scores 1.0; both true scores 3.0; both false (or both
unrecorded) scores 0.0. -/
theorem claim_C2_weighted_score :
    (∀ (weights : List (String × Rat)) (features : List (String × Bool)),
        computeScore weights features
          = ((weights.filter (fun fw => lookupBool features fw.1)).map (·.2)).sum) ∧
    computeScore [("a", 2), ("b", 1)] [("a", true), ("b", false)] = 2 ∧
    computeScore [("a", 2), ("b", 1)] [("a", false), ("b", true)] = 1 ∧
    computeScore [("a", 2), ("b", 1)] [("a", true), ("b", true)] = 3 ∧
    computeScore [("a", 2), ("b", 1)] [("a", false), ("b", false)] = 0 ∧
    computeScore [("a", 2), ("b", 1)] [] = 0 := by
  refine ⟨computeScore_eq_sum, ?_, ?_, ?_, ?_, ?_⟩ <;>
    simp [computeScore, lookupBool, alistGet?, List.find?] <;> norm_num

/-! ## Claim C9: the `/api/compare` endpoint -/

/-- C9 (code bug): every `GET /api/compare` request — with or without a
`category` query parameter — answers 500, never 200, because the handler
passes the keyword argument `category_slug` to
`DatabaseManager.get_feature_comparison`, which accepts no such parameter,
so the call raises `TypeError` on every request and the handler's `except`
converts it to a 500 response. -/
theorem claim_C9_api_compare_always_500 :
    ∀ (category : Option String) (db : DBState),
      (api_compare category db).1 = 500 ∧ (api_compare category db).1 ≠ 200 := by
  intro category db
  have h : (api_compare category db).1 = 500 := rfl
  exact ⟨h, by rw [h]; decide⟩

/-! ## Claim C8: lookups on unknown identifiers -/

/-- A sample store with one service, one ranking row and one category. -/
def dbServicesOnly : DBState :=
  ⟨[⟨1, "Todoist", "https://todoist.com", none, ["web"], none, 0⟩],
   [], [], [], [⟨"personal_use", 1, 1, 3, 0⟩], [⟨1, "Productivity", "productivity"⟩], 2⟩

/-- C8 counterexample: the empty string is not the slug of any category, yet
`get_all_services` with slug `""` returns every service instead of the empty
list the claim requires — the Python guard `if category_slug:` treats `""`
as "no filter". -/
theorem claim_C8_counterexample :
    (∀ c ∈ dbServicesOnly.categories, c.slug ≠ "") ∧
    get_all_services (some "") dbServicesOnly ≠ [] := by decide

/-- C8 (amended): read lookups keyed on an unknown identifier return an empty
or absent result and never raise: `get_all_services` with an unknown
**non-empty** category slug returns an empty list (the empty-string slug is
treated as "no filter" and returns all services), `get_service_by_name` with
an unknown name returns no service, and `get_rankings` for a context with no
stored rankings returns an empty list. -/
theorem claim_C8_unknown_lookups_amended (db : DBState) :
    (∀ slug, slug ≠ "" → (∀ c ∈ db.categories, c.slug ≠ slug) →
        get_all_services (some slug) db = []) ∧
    (∀ name, (∀ s ∈ db.services, s.name ≠ name) →
        get_service_by_name name db = none) ∧
    (∀ context, (∀ r ∈ db.rankings, r.context ≠ context) →
        get_rankings context db = []) := by
  refine ⟨?_, ?_, ?_⟩
  · intro slug hne hunk
    have hfind : db.categories.find? (fun c => c.slug = slug) = none := by
      rw [List.find?_eq_none]
      intro c hc
      simpa using hunk c hc
    simp [get_all_services, hne, hfind]
  · intro name hunk
    rw [get_service_by_name, List.find?_eq_none]
    intro s hs
    simpa using hunk s hs
  · intro context hunk
    have hfil : db.rankings.filter (fun r => r.context = context) = [] := by
      rw [List.filter_eq_nil_iff]
      intro r hr
      simpa using hunk r hr
    simp [get_rankings, hfil, sortBy]

theorem claim_C8_witness :
    get_all_services (some "unknown-slug") dbServicesOnly = [] ∧
    get_service_by_name "Ghost" dbServicesOnly = none ∧
    get_rankings "nope" dbServicesOnly = [] := by
  have h := claim_C8_unknown_lookups_amended dbServicesOnly
  exact ⟨h.1 "unknown-slug" (by decide) (by decide), h.2.1 "Ghost" (by decide),
    h.2.2 "nope" (by decide)⟩

/-! ## Claim C4: weight-vector resolution -/

theorem alistSet_append (l : List (String × β)) (k : String) (v : β)
    (h : k ∉ l.map (·.1)) : alistSet l k v = l ++ [(k, v)] := by
  induction l with
  | nil => rfl
  | cons p ps ih =>
    simp only [List.map_cons, List.mem_cons, not_or] at h
    rw [alistSet, if_neg (fun hh => h.1 hh.symm)]
    simp [ih h.2]

theorem foldl_alistSet_fresh (l : List (String × β)) (acc : List (String × β))
    (hnd : (l.map (·.1)).Nodup)
    (hdisj : ∀ k ∈ l.map (·.1), k ∉ acc.map (·.1)) :
    l.foldl (fun m p => alistSet m p.1 p.2) acc = acc ++ l := by
  induction l generalizing acc with
  | nil => simp
  | cons p ps ih =>
    simp only [List.map_cons, List.nodup_cons] at hnd
    simp only [List.foldl_cons]
    have hp : p.1 ∉ acc.map (·.1) := hdisj p.1 (by simp)
    rw [alistSet_append acc p.1 p.2 hp]
    rw [ih (acc ++ [(p.1, p.2)]) hnd.2 ?_]
    · simp
    · intro k hk
      simp only [List.map_append, List.mem_append, not_or]
      exact ⟨hdisj k (by simp [hk]), by
        simp only [List.map_cons, List.map_nil, List.mem_singleton]
        intro hkp
        exact hnd.1 (hkp ▸ hk)⟩

theorem fold_upsertWeight (context : String) (w : List (String × Rat)) (db : DBState)
    (hnd : (w.map (·.1)).Nodup)
    (hno : ∀ r ∈ db.featureWeights, r.context = context → r.featureName ∉ w.map (·.1)) :
    (w.foldl (fun d fw => upsertWeightStmt context fw.1 fw.2 d) db).featureWeights
      = db.featureWeights ++ w.map (fun fw => ⟨context, fw.1, fw.2⟩) := by
  induction w generalizing db with
  | nil => simp
  | cons fw rest ih =>
    simp only [List.map_cons, List.nodup_cons] at hnd
    simp only [List.foldl_cons]
    have hfil : db.featureWeights.filter
        (fun r => ¬(r.context = context ∧ r.featureName = fw.1)) = db.featureWeights := by
      rw [List.filter_eq_self]
      intro r hr
      simp only [decide_eq_true_eq, not_and]
      intro h1 h2
      exact hno r hr h1 (by simp [h2])
    have hstep : (upsertWeightStmt context fw.1 fw.2 db).featureWeights
        = db.featureWeights ++ [⟨context, fw.1, fw.2⟩] := by
      have hdef : (upsertWeightStmt context fw.1 fw.2 db).featureWeights
          = db.featureWeights.filter
              (fun r => ¬(r.context = context ∧ r.featureName = fw.1))
            ++ [⟨context, fw.1, fw.2⟩] := rfl
      rw [hdef, hfil]
    rw [ih (upsertWeightStmt context fw.1 fw.2 db) hnd.2 ?_]
    · rw [hstep]
      simp
    · intro r hr hctx
      rw [hstep] at hr
      rcases List.mem_append.mp hr with hr | hr
      · intro hmem
        exact hno r hr hctx (by simp [hmem])
      · simp only [List.mem_singleton] at hr
        subst hr
        simpa using hnd.1

theorem set_feature_weights_table (context : String) (w : List (String × Rat))
    (db : DBState) (hnd : (w.map (·.1)).Nodup) :
    (set_feature_weights context w db).featureWeights
      = db.featureWeights.filter (fun r => r.context ≠ context)
        ++ w.map (fun fw => ⟨context, fw.1, fw.2⟩) := by
  unfold set_feature_weights
  rw [fold_upsertWeight context w _ hnd ?_]
  intro r hr hctx
  simp only [List.mem_filter, decide_eq_true_eq] at hr
  exact absurd hctx (by simpa using hr.2)

theorem get_set_feature_weights (context : String) (w : List (String × Rat))
    (db : DBState) (hnd : (w.map (·.1)).Nodup) :
    get_feature_weights context (set_feature_weights context w db) = w := by
  unfold get_feature_weights
  rw [set_feature_weights_table context w db hnd, List.filter_append]
  have h1 : (db.featureWeights.filter (fun r => r.context ≠ context)).filter
      (fun r => r.context = context) = [] := by
    rw [List.filter_eq_nil_iff]
    intro r hr
    simp only [List.mem_filter, decide_eq_true_eq] at hr
    simpa using hr.2
  have h2 : ((w.map (fun fw => (⟨context, fw.1, fw.2⟩ : WeightRow))).filter
      (fun r => r.context = context))
      = w.map (fun fw => (⟨context, fw.1, fw.2⟩ : WeightRow)) := by
    rw [List.filter_eq_self]
    intro r hr
    rcases List.mem_map.mp hr with ⟨fw, _, rfl⟩
    simp
  rw [h1, h2, List.nil_append, List.foldl_map]
  exact foldl_alistSet_fresh w [] hnd (by simp)

/-- C4 counterexample: with a stored vector for context `"c"` and an explicit
**empty** weight map passed as argument, the claim predicts the explicit map
is used and persisted, but `if weights:` treats the empty dict as absent: the
code uses the stored vector and leaves the store unchanged. -/
theorem claim_C4_counterexample :
    ¬ resolveWeights "c" (some [])
        (⟨[], [], [], [⟨"c", "a", 5⟩], [], [], 1⟩ : DBState)
      = ([], set_feature_weights "c" []
          (⟨[], [], [], [⟨"c", "a", 5⟩], [], [], 1⟩ : DBState)) := by decide

/-- C4 (amended): `calculate_rankings` resolves the effective weight vector
as follows: a **non-empty** explicit weights argument is used and persisted
as the new stored vector for that context, overwriting prior values (an
explicit empty map is treated as absent); otherwise the previously stored
vector is used if non-empty; otherwise a uniform vector assigning 1.0 to each
of the eleven fixed core feature names is used, so every core feature is
scored at weight 1.0. -/
theorem claim_C4_weight_resolution_amended (context : String) (db : DBState) :
    (∀ w : List (String × Rat), w ≠ [] →
        resolveWeights context (some w) db = (w, set_feature_weights context w db)) ∧
    (∀ w : List (String × Rat), w ≠ [] → (w.map (·.1)).Nodup →
        get_feature_weights context (set_feature_weights context w db) = w) ∧
    (get_feature_weights context db ≠ [] →
        resolveWeights context none db = (get_feature_weights context db, db)) ∧
    (get_feature_weights context db = [] →
        resolveWeights context none db
          = (coreFeatureNames.map (fun f => (f, (1 : Rat))), db)) ∧
    (∀ f ∈ coreFeatureNames,
        alistGet? (coreFeatureNames.map (fun f => (f, (1 : Rat)))) f = some 1) := by
  refine ⟨?_, ?_, ?_, ?_, by decide⟩
  · intro w hw
    have : w.isEmpty = false := by
      cases w with
      | nil => exact absurd rfl hw
      | cons a l => rfl
    simp [resolveWeights, this]
  · intro w hw hnd
    exact get_set_feature_weights context w db hnd
  · intro hne
    have : (get_feature_weights context db).isEmpty = false := by
      cases h : get_feature_weights context db with
      | nil => exact absurd h hne
      | cons a l => rfl
    simp [resolveWeights, this]
  · intro hemp
    simp [resolveWeights, hemp]

theorem claim_C4_witness :
    resolveWeights "personal_use" (some [("free_tier", 2)])
        (⟨[], [], [], [], [], [], 1⟩ : DBState)
      = ([("free_tier", 2)], set_feature_weights "personal_use" [("free_tier", 2)]
          (⟨[], [], [], [], [], [], 1⟩ : DBState)) ∧
    get_feature_weights "personal_use"
        (set_feature_weights "personal_use" [("free_tier", 2)]
          (⟨[], [], [], [], [], [], 1⟩ : DBState)) = [("free_tier", 2)] ∧
    resolveWeights "personal_use" none (⟨[], [], [], [], [], [], 1⟩ : DBState)
      = (coreFeatureNames.map (fun f => (f, (1 : Rat))),
         (⟨[], [], [], [], [], [], 1⟩ : DBState)) := by
  have h := claim_C4_weight_resolution_amended "personal_use"
    (⟨[], [], [], [], [], [], 1⟩ : DBState)
  exact ⟨h.1 _ (by decide), h.2.1 _ (by decide) (by decide), h.2.2.2.1 (by decide)⟩

/-! ## Effects of `save_service_features` on the store -/

theorem fold_upsertFeature_proj (l : List (String × Bool)) (sid : Nat) (db : DBState) :
    (l.foldl (fun d fb => upsertFeatureStmt sid fb.1 fb.2 d) db).services = db.services ∧
    (l.foldl (fun d fb => upsertFeatureStmt sid fb.1 fb.2 d) db).additionalFeatures
      = db.additionalFeatures ∧
    (l.foldl (fun d fb => upsertFeatureStmt sid fb.1 fb.2 d) db).rankings = db.rankings ∧
    (l.foldl (fun d fb => upsertFeatureStmt sid fb.1 fb.2 d) db).nextServiceId
      = db.nextServiceId := by
  induction l generalizing db with
  | nil => exact ⟨rfl, rfl, rfl, rfl⟩
  | cons fb rest ih => simpa using ih (upsertFeatureStmt sid fb.1 fb.2 db)

theorem fold_insertAdditional_proj (l : List String) (sid : Nat) (db : DBState) :
    (l.foldl (fun d n => insertAdditionalStmt sid n d) db).features = db.features ∧
    (l.foldl (fun d n => insertAdditionalStmt sid n d) db).services = db.services ∧
    (l.foldl (fun d n => insertAdditionalStmt sid n d) db).rankings = db.rankings ∧
    (l.foldl (fun d n => insertAdditionalStmt sid n d) db).nextServiceId
      = db.nextServiceId := by
  induction l generalizing db with
  | nil => exact ⟨rfl, rfl, rfl, rfl⟩
  | cons n rest ih => simpa using ih (insertAdditionalStmt sid n db)

theorem fold_insertAdditional_add (l : List String) (sid : Nat) (db : DBState) :
    (l.foldl (fun d n => insertAdditionalStmt sid n d) db).additionalFeatures
      = db.additionalFeatures ++ l.map (fun n => ⟨sid, n⟩) := by
  induction l generalizing db with
  | nil => simp
  | cons n rest ih =>
    simp only [List.foldl_cons, List.map_cons]
    rw [ih (insertAdditionalStmt sid n db)]
    show db.additionalFeatures ++ [⟨sid, n⟩] ++ _ = _
    simp

theorem saveRest_proj (sid : Nat) (f : ServiceFeatures) (db : DBState) :
    (saveRest sid f db).services = db.services ∧
    (saveRest sid f db).rankings = db.rankings ∧
    (saveRest sid f db).nextServiceId = db.nextServiceId := by
  unfold saveRest
  have h1 := fold_upsertFeature_proj (featureMapList f) sid db
  have h2 := fold_insertAdditional_proj f.additional_features sid
    (deleteAdditionalStmt sid
      ((featureMapList f).foldl (fun d fb => upsertFeatureStmt sid fb.1 fb.2 d) db))
  exact ⟨h2.2.1.trans h1.1, h2.2.2.1.trans h1.2.2.1, h2.2.2.2.trans h1.2.2.2⟩

/-- The saved state's `features` table comes entirely from the eleven-upsert
    fold; the additional-features statements do not touch it. -/
theorem saveRest_features (sid : Nat) (f : ServiceFeatures) (db : DBState) :
    (saveRest sid f db).features
      = ((featureMapList f).foldl (fun d fb => upsertFeatureStmt sid fb.1 fb.2 d)
          db).features := by
  unfold saveRest
  exact (fold_insertAdditional_proj f.additional_features sid _).1

theorem deleteAdditional_filter (sid : Nat) (db : DBState) :
    (deleteAdditionalStmt sid db).additionalFeatures.filter
      (fun r => r.serviceId = sid) = [] := by
  have hdef : (deleteAdditionalStmt sid db).additionalFeatures
      = db.additionalFeatures.filter (fun r => r.serviceId ≠ sid) := rfl
  rw [hdef, List.filter_filter, List.filter_eq_nil_iff]
  intro r _
  by_cases h : r.serviceId = sid <;> simp [h]

theorem saveRest_additional (sid : Nat) (f : ServiceFeatures) (db : DBState) :
    (saveRest sid f db).additionalFeatures.filter (fun r => r.serviceId = sid)
      = f.additional_features.map (fun n => ⟨sid, n⟩) := by
  unfold saveRest
  rw [fold_insertAdditional_add, List.filter_append]
  have h1 := deleteAdditional_filter sid
    ((featureMapList f).foldl (fun d fb => upsertFeatureStmt sid fb.1 fb.2 d) db)
  have h2 : (f.additional_features.map
        (fun n => (⟨sid, n⟩ : AdditionalFeatureRow))).filter
      (fun r => r.serviceId = sid)
      = f.additional_features.map (fun n => ⟨sid, n⟩) := by
    rw [List.filter_eq_self]
    intro r hr
    rcases List.mem_map.mp hr with ⟨n, _, rfl⟩
    simp
  rw [h1, h2, List.nil_append]

/-- Upserting a sequence of feature rows does not disturb rows of a feature
    name outside the sequence. -/
theorem fold_upsert_other (l : List (String × Bool)) (sid : Nat) (fn : String)
    (db : DBState) (h : fn ∉ l.map (·.1)) :
    (l.foldl (fun d fb => upsertFeatureStmt sid fb.1 fb.2 d) db).features.filter
        (fun fr => fr.serviceId = sid ∧ fr.featureName = fn)
      = db.features.filter (fun fr => fr.serviceId = sid ∧ fr.featureName = fn) := by
  induction l generalizing db with
  | nil => rfl
  | cons g rest ih =>
    simp only [List.map_cons, List.mem_cons, not_or] at h
    simp only [List.foldl_cons]
    rw [ih (upsertFeatureStmt sid g.1 g.2 db) h.2]
    have hdef : (upsertFeatureStmt sid g.1 g.2 db).features
        = db.features.filter (fun fr => ¬(fr.serviceId = sid ∧ fr.featureName = g.1))
          ++ [⟨sid, g.1, g.2⟩] := rfl
    rw [hdef, List.filter_append, List.filter_filter]
    have hrow : ([(⟨sid, g.1, g.2⟩ : FeatureRow)].filter
        (fun fr => fr.serviceId = sid ∧ fr.featureName = fn)) = [] := by
      have hne : ¬(g.1 = fn) := fun hh => h.1 hh.symm
      simp [List.filter, hne]
    rw [hrow, List.append_nil]
    apply List.filter_congr
    intro fr _
    by_cases hk : fr.serviceId = sid ∧ fr.featureName = fn
    · simp [hk, h.1]
    · simp [hk]

/-- After the eleven-upsert fold over a duplicate-free feature map, the rows
    of each written feature name are exactly the single latest row. -/
theorem fold_upsert_key (l : List (String × Bool)) (sid : Nat) (db : DBState)
    (hnd : (l.map (·.1)).Nodup) :
    ∀ fb ∈ l,
      (l.foldl (fun d fb => upsertFeatureStmt sid fb.1 fb.2 d) db).features.filter
          (fun fr => fr.serviceId = sid ∧ fr.featureName = fb.1)
        = [⟨sid, fb.1, fb.2⟩] := by
  induction l generalizing db with
  | nil => intro fb hfb; cases hfb
  | cons g rest ih =>
    simp only [List.map_cons, List.nodup_cons] at hnd
    intro fb hfb
    rcases List.mem_cons.mp hfb with rfl | hfb
    · simp only [List.foldl_cons]
      rw [fold_upsert_other rest sid fb.1 (upsertFeatureStmt sid fb.1 fb.2 db) hnd.1]
      have hdef : (upsertFeatureStmt sid fb.1 fb.2 db).features
          = db.features.filter
              (fun fr => ¬(fr.serviceId = sid ∧ fr.featureName = fb.1))
            ++ [⟨sid, fb.1, fb.2⟩] := rfl
      rw [hdef, List.filter_append, List.filter_filter]
      have hz : (db.features.filter (fun fr =>
          decide (fr.serviceId = sid ∧ fr.featureName = fb.1) &&
          decide (¬(fr.serviceId = sid ∧ fr.featureName = fb.1)))) = [] := by
        rw [List.filter_eq_nil_iff]
        intro fr _
        by_cases hk : fr.serviceId = sid ∧ fr.featureName = fb.1 <;> simp [hk]
      rw [hz, List.nil_append]
      simp [List.filter]
    · simp only [List.foldl_cons]
      exact ih (upsertFeatureStmt sid g.1 g.2 db) hnd.2 fb hfb

/-- `save_service_features` always has the shape: pick a service id, run the
    service-row statement, then `saveRest`. -/
theorem save_shape (f : ServiceFeatures) (now : Nat) (db : DBState) :
    ∃ db', save_service_features f now db
      = ((save_service_features f now db).1,
         saveRest (save_service_features f now db).1 f db')
      ∧ db'.features = db.features := by
  unfold save_service_features
  cases hfind : db.services.find? (fun s => s.name = f.name) with
  | some row => exact ⟨updateServiceStmt row.id f now db, rfl, rfl⟩
  | none => exact ⟨insertServiceStmt f now db, rfl, rfl⟩

/-! ## Uniqueness of the service row keyed by name -/

theorem find?_name_unique (l : List ServiceRow) (hnd : (l.map (·.name)).Nodup)
    (row : ServiceRow) (n : String) (hrow : row ∈ l) (hname : row.name = n) :
    l.find? (fun s => s.name = n) = some row := by
  induction l with
  | nil => cases hrow
  | cons s ss ih =>
    simp only [List.map_cons, List.nodup_cons] at hnd
    rcases List.mem_cons.mp hrow with rfl | hrow
    · exact List.find?_cons_of_pos ss (by simp [hname])
    · have hs : ¬(s.name = n) := by
        intro he
        apply hnd.1
        rw [he, ← hname]
        exact List.mem_map_of_mem (·.name) hrow
      rw [List.find?_cons_of_neg ss (by simp [hs])]
      exact ih hnd.2 hrow

theorem filter_name_unique (l : List ServiceRow) (hnd : (l.map (·.name)).Nodup)
    (row : ServiceRow) (n : String) (hrow : row ∈ l) (hname : row.name = n) :
    l.filter (fun s => s.name = n) = [row] := by
  induction l with
  | nil => cases hrow
  | cons s ss ih =>
    simp only [List.map_cons, List.nodup_cons] at hnd
    rcases List.mem_cons.mp hrow with rfl | hrow
    · rw [List.filter_cons_of_pos (by simp [hname])]
      have hrest : ss.filter (fun s => s.name = n) = [] := by
        rw [List.filter_eq_nil_iff]
        intro t ht
        simp only [decide_eq_true_eq]
        intro he
        apply hnd.1
        rw [hname, ← he]
        exact List.mem_map_of_mem (·.name) ht
      rw [hrest]
    · have hs : ¬(s.name = n) := by
        intro he
        apply hnd.1
        rw [he, ← hname]
        exact List.mem_map_of_mem (·.name) hrow
      rw [List.filter_cons_of_neg (by simp [hs])]
      exact ih hnd.2 hrow

/-- The UPDATE branch of the service upsert rewrites url/pricing/platforms
    and timestamp but never id or name. -/
theorem updateService_def (sid : Nat) (f : ServiceFeatures) (now : Nat) (db : DBState) :
    (updateServiceStmt sid f now db).services
      = db.services.map (fun s => if s.id = sid then
          { s with url := f.url, pricing := f.pricing, platforms := f.platforms,
                   lastUpdated := now } else s) := rfl

theorem updateService_ids (sid : Nat) (f : ServiceFeatures) (now : Nat) (db : DBState) :
    (updateServiceStmt sid f now db).services.map (·.id) = db.services.map (·.id) := by
  rw [updateService_def, List.map_map]
  apply List.map_congr_left
  intro s _
  by_cases h : s.id = sid <;> simp [h]

theorem updateService_names (sid : Nat) (f : ServiceFeatures) (now : Nat) (db : DBState) :
    (updateServiceStmt sid f now db).services.map (·.name) = db.services.map (·.name) := by
  rw [updateService_def, List.map_map]
  apply List.map_congr_left
  intro s _
  by_cases h : s.id = sid <;> simp [h]

theorem updateService_filter_name (sid : Nat) (f : ServiceFeatures) (now : Nat)
    (db : DBState) (n : String) :
    ((updateServiceStmt sid f now db).services.filter (fun s => s.name = n)).length
      = (db.services.filter (fun s => s.name = n)).length := by
  rw [updateService_def, List.filter_map, List.length_map]
  congr 1
  apply List.filter_congr
  intro s _
  by_cases h : s.id = sid <;> simp [h]

/-- After a save, the store holds exactly one service row with the saved name,
    and service names stay duplicate-free. -/
theorem save_services_names (f : ServiceFeatures) (now : Nat) (db : DBState)
    (hnd : (db.services.map (·.name)).Nodup) :
    ((save_service_features f now db).2.services.map (·.name)).Nodup ∧
    ((save_service_features f now db).2.services.filter
      (fun s => s.name = f.name)).length = 1 := by
  unfold save_service_features
  cases hfind : db.services.find? (fun s => s.name = f.name) with
  | some row =>
    have hmem := List.mem_of_find?_eq_some hfind
    have hpred := List.find?_some hfind
    simp only [decide_eq_true_eq] at hpred
    simp only
    rw [(saveRest_proj row.id f _).1]
    constructor
    · rw [updateService_names]
      exact hnd
    · rw [updateService_filter_name]
      rw [filter_name_unique db.services hnd row f.name hmem hpred]
      rfl
  | none =>
    have hnone := List.find?_eq_none.mp hfind
    simp only
    rw [(saveRest_proj db.nextServiceId f _).1]
    have hdef : (insertServiceStmt f now db).services
        = db.services ++ [⟨db.nextServiceId, f.name, f.url, f.pricing,
            f.platforms, none, now⟩] := rfl
    constructor
    · rw [hdef, List.map_append, List.nodup_append]
      refine ⟨hnd, by simp, ?_⟩
      intro a ha hb
      simp only [List.map_cons, List.map_nil, List.mem_singleton] at hb
      rcases List.mem_map.mp ha with ⟨s, hs, rfl⟩
      exact absurd (by simpa using hb : s.name = f.name) (by simpa using hnone s hs)
    · rw [hdef, List.filter_append]
      have h1 : db.services.filter (fun s => s.name = f.name) = [] := by
        rw [List.filter_eq_nil_iff]
        intro s hs
        simpa using hnone s hs
      rw [h1, List.nil_append]
      simp

/-! ## Claim C10: the service identifier is stable across saves -/

/-- C10: saving a record whose name already exists returns the identifier of
the existing service row rather than allocating a new one; the set of service
ids is unchanged and the rankings table (keyed on service_id) is untouched,
so rows keyed on that id stay attached to the same service. -/
theorem claim_C10_stable_service_id (db : DBState) (f : ServiceFeatures) (now : Nat)
    (row : ServiceRow) (hwf : Wellformed db) (hrow : row ∈ db.services)
    (hname : row.name = f.name) :
    (save_service_features f now db).1 = row.id ∧
    (save_service_features f now db).2.services.map (·.id)
      = db.services.map (·.id) ∧
    (save_service_features f now db).2.rankings = db.rankings := by
  have hfind := find?_name_unique db.services hwf.2.1 row f.name hrow hname
  unfold save_service_features
  rw [hfind]
  refine ⟨rfl, ?_, ?_⟩
  · show (saveRest row.id f (updateServiceStmt row.id f now db)).services.map (·.id) = _
    rw [(saveRest_proj row.id f _).1]
    exact updateService_ids row.id f now db
  · show (saveRest row.id f (updateServiceStmt row.id f now db)).rankings = _
    exact (saveRest_proj row.id f _).2.1

/-- A record for the service already stored in `dbServicesOnly`. -/
def recTodoist : ServiceFeatures :=
  ⟨"Todoist", "https://todoist.com", true, none, ["web"], true, true, true,
   true, true, true, false, true, true, true, ["karma"]⟩

theorem claim_C10_witness :
    (save_service_features recTodoist 7 dbServicesOnly).1 = 1 ∧
    (save_service_features recTodoist 7 dbServicesOnly).2.services.map (·.id)
      = dbServicesOnly.services.map (·.id) ∧
    (save_service_features recTodoist 7 dbServicesOnly).2.rankings
      = dbServicesOnly.rankings :=
  claim_C10_stable_service_id dbServicesOnly recTodoist 7
    ⟨1, "Todoist", "https://todoist.com", none, ["web"], none, 0⟩
    (by decide) (by decide) (by decide)

/-! ## Claim C5: the save upsert round-trips -/

/-- C5: saving twice under the same service name with different values leaves
exactly one service row with that name; the boolean feature rows for that
service carry exactly the values of the second (latest) record — one row per
core feature, never a mix of old and new — and the additional-feature rows
are exactly the second record's list (empty list ⇒ zero rows). -/
theorem claim_C5_upsert_round_trip (db : DBState) (f1 f2 : ServiceFeatures)
    (now1 now2 : Nat) (hwf : Wellformed db) (hname : f1.name = f2.name) :
    ((save_service_features f2 now2
        (save_service_features f1 now1 db).2).2.services.filter
      (fun s => s.name = f2.name)).length = 1 ∧
    (∀ fb ∈ featureMapList f2,
      (save_service_features f2 now2
          (save_service_features f1 now1 db).2).2.features.filter
        (fun fr => fr.serviceId = (save_service_features f2 now2
            (save_service_features f1 now1 db).2).1 ∧ fr.featureName = fb.1)
        = [⟨(save_service_features f2 now2
            (save_service_features f1 now1 db).2).1, fb.1, fb.2⟩]) ∧
    (save_service_features f2 now2
        (save_service_features f1 now1 db).2).2.additionalFeatures.filter
      (fun r => r.serviceId = (save_service_features f2 now2
          (save_service_features f1 now1 db).2).1)
      = f2.additional_features.map
          (fun n => ⟨(save_service_features f2 now2
              (save_service_features f1 now1 db).2).1, n⟩) ∧
    (f2.additional_features = [] →
      (save_service_features f2 now2
          (save_service_features f1 now1 db).2).2.additionalFeatures.filter
        (fun r => r.serviceId = (save_service_features f2 now2
            (save_service_features f1 now1 db).2).1) = []) := by
  set db1 := (save_service_features f1 now1 db).2 with hdb1
  have hnd1 : (db1.services.map (·.name)).Nodup :=
    (save_services_names f1 now1 db hwf.2.1).1
  obtain ⟨db', hshape, _⟩ := save_shape f2 now2 db1
  set sid := (save_service_features f2 now2 db1).1 with hsid
  have h2 : (save_service_features f2 now2 db1).2 = saveRest sid f2 db' := by
    rw [hshape]
  have hfmnd : ((featureMapList f2).map (·.1)).Nodup := by
    have he : (featureMapList f2).map (·.1) = coreFeatureNames := rfl
    rw [he]
    decide
  refine ⟨?_, ?_, ?_, ?_⟩
  · rw [h2] at *
    have := (save_services_names f2 now2 db1 hnd1).2
    rw [hshape] at this
    exact this
  · intro fb hfb
    rw [h2, saveRest_features]
    exact fold_upsert_key (featureMapList f2) sid db' hfmnd fb hfb
  · rw [h2]
    exact saveRest_additional sid f2 db'
  · intro hemp
    rw [h2, saveRest_additional sid f2 db', hemp]
    rfl

/-- A second record under the same name as `recTodoist`, with flipped feature
    values and no additional features. -/
def recTodoistV2 : ServiceFeatures :=
  ⟨"Todoist", "https://todoist.com/v2", false, some "$4/month", ["ios"], false,
   false, false, false, false, false, true, false, false, false, []⟩

theorem claim_C5_witness :
    ((save_service_features recTodoistV2 8
        (save_service_features recTodoist 7 dbServicesOnly).2).2.services.filter
      (fun s => s.name = recTodoistV2.name)).length = 1 ∧
    (save_service_features recTodoistV2 8
        (save_service_features recTodoist 7 dbServicesOnly).2).2.additionalFeatures.filter
      (fun r => r.serviceId = (save_service_features recTodoistV2 8
          (save_service_features recTodoist 7 dbServicesOnly).2).1) = [] := by
  have h := claim_C5_upsert_round_trip dbServicesOnly recTodoist recTodoistV2 7 8
    (by decide) (by decide)
  exact ⟨h.1, h.2.2.2 (by decide)⟩

/-! ## Claim C1: atomicity of `save_service_features` -/

theorem runStmts_cases (failAt : Option Nat) (fs : List (DBState → DBState))
    (ts : TxState) :
    (∃ e, runStmts failAt fs ts = .error e) ∨
    (∃ c, runStmts failAt fs ts = .ok ⟨fs.foldl (fun d g => g d) ts.db, c⟩) := by
  induction fs generalizing ts with
  | nil => exact Or.inr ⟨ts.counter, rfl⟩
  | cons g gs ih =>
    by_cases h : failAt = some ts.counter
    · refine Or.inl ⟨"storage failure", ?_⟩
      simp [runStmts, runStmt, h]
    · have hstep : runStmt failAt g ts = .ok ⟨g ts.db, ts.counter + 1⟩ := by
        simp [runStmt, h]
      have : runStmts failAt (g :: gs) ts = runStmts failAt gs ⟨g ts.db, ts.counter + 1⟩ := by
        simp [runStmts, hstep]
      rw [this]
      simpa using ih ⟨g ts.db, ts.counter + 1⟩

theorem saveTail_cases (failAt : Option Nat) (f : ServiceFeatures) (sid : Nat)
    (ts : TxState) :
    (∃ e, saveTail failAt f sid ts = .error e) ∨
    (∃ c, saveTail failAt f sid ts = .ok (sid, ⟨saveRest sid f ts.db, c⟩)) := by
  unfold saveTail
  rcases runStmts_cases failAt
      ((featureMapList f).map (fun fb => upsertFeatureStmt sid fb.1 fb.2)) ts with
    ⟨e, he⟩ | ⟨c, hc⟩
  · rw [he]
    exact Or.inl ⟨e, rfl⟩
  · simp only [hc]
    by_cases h : failAt = some c
    · refine Or.inl ⟨"storage failure", ?_⟩
      simp [runStmt, h]
    · have hdel : runStmt failAt (deleteAdditionalStmt sid)
          ⟨((featureMapList f).map
              (fun fb => upsertFeatureStmt sid fb.1 fb.2)).foldl
            (fun d g => g d) ts.db, c⟩
          = .ok ⟨deleteAdditionalStmt sid
              (((featureMapList f).map
                  (fun fb => upsertFeatureStmt sid fb.1 fb.2)).foldl
                (fun d g => g d) ts.db), c + 1⟩ := by
        simp [runStmt, h]
      simp only [hdel]
      rcases runStmts_cases failAt
          (f.additional_features.map (insertAdditionalStmt sid))
          ⟨deleteAdditionalStmt sid
            (((featureMapList f).map
                (fun fb => upsertFeatureStmt sid fb.1 fb.2)).foldl
              (fun d g => g d) ts.db), c + 1⟩ with ⟨e, he2⟩ | ⟨c2, hc2⟩
      · simp only [he2]
        exact Or.inl ⟨e, rfl⟩
      · simp only [hc2]
        refine Or.inr ⟨c2, ?_⟩
        have hre : (f.additional_features.map (insertAdditionalStmt sid)).foldl
              (fun d g => g d)
              (deleteAdditionalStmt sid
                (((featureMapList f).map
                    (fun fb => upsertFeatureStmt sid fb.1 fb.2)).foldl
                  (fun d g => g d) ts.db))
            = saveRest sid f ts.db := by
          simp [saveRest, List.foldl_map]
        rw [hre]

theorem saveBody_cases (failAt : Option Nat) (f : ServiceFeatures) (now : Nat)
    (ts : TxState) :
    (∃ e, saveServiceFeaturesBody failAt f now ts = .error e) ∨
    (∃ c, saveServiceFeaturesBody failAt f now ts
       = .ok ((save_service_features f now ts.db).1,
              ⟨(save_service_features f now ts.db).2, c⟩)) := by
  unfold saveServiceFeaturesBody
  by_cases h0 : failAt = some ts.counter
  · refine Or.inl ⟨"storage failure", ?_⟩
    simp [runQuery, h0]
  · have hq : runQuery failAt
        (fun db => (db.services.find? (fun s => s.name = f.name)).map (·.id)) ts
        = .ok ((ts.db.services.find? (fun s => s.name = f.name)).map (·.id),
               ⟨ts.db, ts.counter + 1⟩) := by
      simp [runQuery, h0]
    simp only [hq]
    cases hfind : ts.db.services.find? (fun s => s.name = f.name) with
    | some row =>
      simp only [hfind, Option.map_some']
      by_cases h1 : failAt = some (ts.counter + 1)
      · refine Or.inl ⟨"storage failure", ?_⟩
        simp [runStmt, h1]
      · have hst : runStmt failAt (updateServiceStmt row.id f now)
            ⟨ts.db, ts.counter + 1⟩
            = .ok ⟨updateServiceStmt row.id f now ts.db, ts.counter + 2⟩ := by
          simp [runStmt, h1]
        simp only [hst]
        rcases saveTail_cases failAt f row.id
            ⟨updateServiceStmt row.id f now ts.db, ts.counter + 2⟩ with
          ⟨e, he⟩ | ⟨c, hc⟩
        · simp only [he]
          exact Or.inl ⟨e, rfl⟩
        · simp only [hc]
          refine Or.inr ⟨c, ?_⟩
          have hpure : save_service_features f now ts.db
              = (row.id, saveRest row.id f (updateServiceStmt row.id f now ts.db)) := by
            unfold save_service_features
            rw [hfind]
          simp [hpure]
    | none =>
      simp only [hfind, Option.map_none']
      by_cases h1 : failAt = some (ts.counter + 1)
      · refine Or.inl ⟨"storage failure", ?_⟩
        simp [runStmt, h1]
      · have hst : runStmt failAt (insertServiceStmt f now) ⟨ts.db, ts.counter + 1⟩
            = .ok ⟨insertServiceStmt f now ts.db, ts.counter + 2⟩ := by
          simp [runStmt, h1]
        simp only [hst]
        rcases saveTail_cases failAt f ts.db.nextServiceId
            ⟨insertServiceStmt f now ts.db, ts.counter + 2⟩ with
          ⟨e, he⟩ | ⟨c, hc⟩
        · simp only [he]
          exact Or.inl ⟨e, rfl⟩
        · simp only [hc]
          refine Or.inr ⟨c, ?_⟩
          have hpure : save_service_features f now ts.db
              = (ts.db.nextServiceId,
                 saveRest ts.db.nextServiceId f (insertServiceStmt f now ts.db)) := by
            unfold save_service_features
            rw [hfind]
          simp [hpure]

/-- C1: under the transaction scope of `get_connection`, a
`save_service_features` call in which any statement of the sequence (the
lookup, the service upsert, the eleven feature upserts, the additional-feature
delete or any insert) fails leaves the store exactly as it was before the
call and re-raises the error; and a call with no failure commits exactly the
pure upsert result. -/
theorem claim_C1_save_atomicity (failAt : Option Nat) (f : ServiceFeatures)
    (now : Nat) (db : DBState) :
    (∃ e, saveServiceFeaturesTx failAt f now db = (.error e, db)) ∨
    saveServiceFeaturesTx failAt f now db
      = (.ok (save_service_features f now db).1,
         (save_service_features f now db).2) := by
  unfold saveServiceFeaturesTx withConnection
  rcases saveBody_cases failAt f now ⟨db, 0⟩ with ⟨e, he⟩ | ⟨c, hc⟩
  · simp only [he]
    exact Or.inl ⟨e, rfl⟩
  · simp [hc]

/-! ## Claim C7: the comparison matrix pivots the feature rows exactly -/

theorem alistGet?_mem (l : List (String × β)) (k : String) (v : β)
    (h : alistGet? l k = some v) : (k, v) ∈ l := by
  unfold alistGet? at h
  cases hf : l.find? (fun p => p.1 = k) with
  | none => rw [hf] at h; cases h
  | some p =>
    rw [hf] at h
    have hp := List.find?_some hf
    have hmem := List.mem_of_find?_eq_some hf
    simp only [Option.map_some', Option.some.injEq] at h
    simp only [decide_eq_true_eq] at hp
    have : p = (k, v) := by
      cases p
      simp only at hp h
      simp [hp, h]
    exact this ▸ hmem

theorem alistSet_keys_sub (l : List (String × β)) (k : String) (v : β) (a : String)
    (h : a ∈ (alistSet l k v).map (·.1)) : a ∈ l.map (·.1) ∨ a = k := by
  induction l with
  | nil =>
    right
    simpa [alistSet] using h
  | cons p ps ih =>
    by_cases hp : p.1 = k
    · rw [alistSet, if_pos hp] at h
      simp only [List.map_cons, List.mem_cons] at h ⊢
      rcases h with h | h
      · exact Or.inr h
      · exact Or.inl (Or.inr h)
    · rw [alistSet, if_neg hp] at h
      simp only [List.map_cons, List.mem_cons] at h ⊢
      rcases h with h | h
      · exact Or.inl (Or.inl h)
      · rcases ih h with h' | h'
        · exact Or.inl (Or.inr h')
        · exact Or.inr h'

theorem alistSet_keys_nodup (l : List (String × β)) (k : String) (v : β)
    (h : (l.map (·.1)).Nodup) : ((alistSet l k v).map (·.1)).Nodup := by
  induction l with
  | nil => simp [alistSet]
  | cons p ps ih =>
    simp only [List.map_cons, List.nodup_cons] at h
    by_cases hp : p.1 = k
    · rw [alistSet, if_pos hp]
      simp only [List.map_cons, List.nodup_cons]
      exact ⟨hp ▸ h.1, h.2⟩
    · rw [alistSet, if_neg hp]
      simp only [List.map_cons, List.nodup_cons]
      refine ⟨?_, ih h.2⟩
      intro hmem
      rcases alistSet_keys_sub ps k v p.1 hmem with h' | h'
      · exact h.1 h'
      · exact hp h'

theorem alistSet_mem_values (l : List (String × β)) (k : String) (v : β) (e : String × β)
    (h : e ∈ alistSet l k v) : e ∈ l ∨ e = (k, v) := by
  induction l with
  | nil =>
    right
    simpa [alistSet] using h
  | cons p ps ih =>
    by_cases hp : p.1 = k
    · rw [alistSet, if_pos hp] at h
      rcases List.mem_cons.mp h with h | h
      · exact Or.inr h
      · exact Or.inl (List.mem_cons_of_mem p h)
    · rw [alistSet, if_neg hp] at h
      rcases List.mem_cons.mp h with h | h
      · exact Or.inl (h ▸ List.mem_cons_self p ps)
      · rcases ih h with h' | h'
        · exact Or.inl (List.mem_cons_of_mem p h')
        · exact Or.inr h'

/-- One iteration of the nested-dict construction loop, as seen by a cell
    lookup. -/
theorem comparisonCell_step (comp : List (String × List (String × Bool)))
    (row : String × String × Bool) (n fn : String) :
    comparisonCell
        (alistSet comp row.1 (alistSet ((alistGet? comp row.1).getD []) row.2.1 row.2.2))
        n fn
      = if n = row.1 ∧ fn = row.2.1 then some row.2.2
        else comparisonCell comp n fn := by
  by_cases hn : n = row.1
  · subst hn
    unfold comparisonCell
    rw [alistGet?_set_self]
    simp only [Option.some_bind]
    by_cases hf : fn = row.2.1
    · subst hf
      rw [alistGet?_set_self]
      simp
    · rw [alistGet?_set_ne _ _ _ _ hf]
      rw [if_neg (fun hh => hf hh.2)]
      cases halist : alistGet? comp row.1 with
      | none => simp [alistGet?]
      | some m0 => simp
  · unfold comparisonCell
    rw [alistGet?_set_ne _ _ _ _ hn]
    rw [if_neg (fun hh => hn hh.1)]

/-- The comparison value a list of joined rows assigns to one
    (service, feature) pair: the first row with that key, if any. -/
def rowsCell (rows : List (String × String × Bool)) (n fn : String) : Option Bool :=
  (rows.find? (fun r => r.1 = n ∧ r.2.1 = fn)).map (·.2.2)

theorem rowsCell_eq_none (rows : List (String × String × Bool)) (n fn : String)
    (h : (n, fn) ∉ rows.map (fun r => (r.1, r.2.1))) : rowsCell rows n fn = none := by
  unfold rowsCell
  rw [List.find?_eq_none.mpr]
  · rfl
  · intro r hr
    simp only [decide_eq_true_eq, not_and]
    intro h1 h2
    exact h (by
      have : (r.1, r.2.1) ∈ rows.map (fun r => (r.1, r.2.1)) :=
        List.mem_map_of_mem _ hr
      rwa [h1, h2] at this)

theorem buildFold_cell (rows : List (String × String × Bool)) (n fn : String) :
    ∀ acc, (rows.map (fun r => (r.1, r.2.1))).Nodup →
      comparisonCell
          (rows.foldl
            (fun comp row =>
              alistSet comp row.1
                (alistSet ((alistGet? comp row.1).getD []) row.2.1 row.2.2))
            acc) n fn
        = match rowsCell rows n fn with
          | some b => some b
          | none => comparisonCell acc n fn := by
  induction rows with
  | nil =>
    intro acc _
    simp [rowsCell]
  | cons r rest ih =>
    intro acc hnd
    simp only [List.map_cons, List.nodup_cons] at hnd
    simp only [List.foldl_cons]
    rw [ih _ hnd.2]
    by_cases hk : r.1 = n ∧ r.2.1 = fn
    · have hrc : rowsCell rest n fn = none := by
        apply rowsCell_eq_none
        rw [← hk.1, ← hk.2]
        exact hnd.1
      have hhead : rowsCell (r :: rest) n fn = some r.2.2 := by
        unfold rowsCell
        rw [List.find?_cons_of_pos _ (by simp [hk.1, hk.2])]
        rfl
      rw [hrc, hhead, comparisonCell_step]
      rw [if_pos ⟨hk.1.symm, hk.2.symm⟩]
    · have hhead : rowsCell (r :: rest) n fn = rowsCell rest n fn := by
        unfold rowsCell
        rw [List.find?_cons_of_neg _ (by simpa using hk)]
      rw [hhead]
      cases hrc : rowsCell rest n fn with
      | some b => rfl
      | none =>
        rw [comparisonCell_step]
        rw [if_neg (fun hh => hk ⟨hh.1.symm, hh.2.symm⟩)]

theorem mem_key_unique (rows : List (String × String × Bool))
    (hnd : (rows.map (fun r => (r.1, r.2.1))).Nodup)
    (r1 r2 : String × String × Bool) (h1 : r1 ∈ rows) (h2 : r2 ∈ rows)
    (hk1 : r1.1 = r2.1) (hk2 : r1.2.1 = r2.2.1) : r1 = r2 := by
  induction rows with
  | nil => cases h1
  | cons s rest ih =>
    simp only [List.map_cons, List.nodup_cons] at hnd
    rcases List.mem_cons.mp h1 with rfl | h1m
    · rcases List.mem_cons.mp h2 with rfl | h2m
      · rfl
      · exact absurd (by rw [hk1, hk2]; exact List.mem_map_of_mem _ h2m) hnd.1
    · rcases List.mem_cons.mp h2 with rfl | h2m
      · exact absurd (by rw [← hk1, ← hk2]; exact List.mem_map_of_mem _ h1m) hnd.1
      · exact ih hnd.2 h1m h2m

theorem rowsCell_some_iff (rows : List (String × String × Bool))
    (hnd : (rows.map (fun r => (r.1, r.2.1))).Nodup) (n fn : String) (b : Bool) :
    rowsCell rows n fn = some b ↔ (n, fn, b) ∈ rows := by
  constructor
  · intro h
    unfold rowsCell at h
    cases hf : rows.find? (fun r => r.1 = n ∧ r.2.1 = fn) with
    | none => rw [hf] at h; cases h
    | some r =>
      rw [hf] at h
      have hp := List.find?_some hf
      have hmem := List.mem_of_find?_eq_some hf
      simp only [decide_eq_true_eq] at hp
      simp only [Option.map_some', Option.some.injEq] at h
      have : r = (n, fn, b) := by
        obtain ⟨ra, rb, rc⟩ := r
        simp only at hp h
        simp [hp.1, hp.2, h]
      exact this ▸ hmem
  · intro h
    have hsome : (rows.find? (fun r => r.1 = n ∧ r.2.1 = fn)).isSome :=
      List.find?_isSome.mpr ⟨(n, fn, b), h, by simp⟩
    obtain ⟨r, hr⟩ := Option.isSome_iff_exists.mp hsome
    have hp := List.find?_some hr
    have hmem := List.mem_of_find?_eq_some hr
    simp only [decide_eq_true_eq] at hp
    have : r = (n, fn, b) := mem_key_unique rows hnd r (n, fn, b) hmem h
      (by simpa using hp.1) (by simpa using hp.2)
    unfold rowsCell
    rw [hr, this]
    rfl

theorem comparisonRows_mem (db : DBState) (r : String × String × Bool) :
    r ∈ comparisonRows db ↔ ∃ s ∈ db.services, ∃ fr ∈ db.features,
      fr.serviceId = s.id ∧ r = (s.name, fr.featureName, fr.isAvailable) := by
  unfold comparisonRows
  rw [(sortBy_perm _ _).mem_iff, List.mem_flatMap]
  constructor
  · rintro ⟨s, hs, hr⟩
    rcases List.mem_map.mp hr with ⟨fr, hfr, rfl⟩
    have hfil := List.mem_filter.mp hfr
    exact ⟨s, hs, fr, hfil.1, by simpa using hfil.2, rfl⟩
  · rintro ⟨s, hs, fr, hfr, hsid, rfl⟩
    exact ⟨s, hs, List.mem_map_of_mem _
      (List.mem_filter.mpr ⟨hfr, by simpa using hsid⟩)⟩

theorem comparisonRows_keys_nodup (db : DBState) (hwf : Wellformed db) :
    ((comparisonRows db).map (fun r => (r.1, r.2.1))).Nodup := by
  unfold comparisonRows
  rw [((sortBy_perm _ _).map _).nodup_iff, List.map_flatMap, List.flatMap_def,
    List.nodup_flatten]
  constructor
  · intro bl hbl
    rcases List.mem_map.mp hbl with ⟨s, hs, rfl⟩
    rw [List.map_map]
    have hsubl : List.Sublist
        ((db.features.filter (fun fr => fr.serviceId = s.id)).map
          (fun fr => (fr.serviceId, fr.featureName)))
        (db.features.map (fun fr => (fr.serviceId, fr.featureName))) :=
      (List.filter_sublist _).map _
    have hkeys := hwf.2.2.2.sublist hsubl
    unfold List.Nodup at hkeys ⊢
    rw [List.pairwise_map] at hkeys ⊢
    apply List.Pairwise.imp_of_mem ?_ hkeys
    intro fr1 fr2 hm1 hm2 hne
    have e1 : fr1.serviceId = s.id := by
      simpa using (List.mem_filter.mp hm1).2
    have e2 : fr2.serviceId = s.id := by
      simpa using (List.mem_filter.mp hm2).2
    intro heq
    apply hne
    have hf : fr1.featureName = fr2.featureName := by
      simpa using heq
    rw [e1, e2, hf]
  · rw [List.pairwise_map]
    have hnames := hwf.2.1
    unfold List.Nodup at hnames
    rw [List.pairwise_map] at hnames
    apply List.Pairwise.imp ?_ hnames
    intro s t hne
    intro a ha hb
    have ha1 : a.1 = s.name := by
      rcases List.mem_map.mp ha with ⟨row, hrow, rfl⟩
      rcases List.mem_map.mp hrow with ⟨fr, _, rfl⟩
      rfl
    have hb1 : a.1 = t.name := by
      rcases List.mem_map.mp hb with ⟨row, hrow, rfl⟩
      rcases List.mem_map.mp hrow with ⟨fr, _, rfl⟩
      rfl
    exact hne (by rw [← ha1, hb1])

theorem buildComparison_nodup (rows : List (String × String × Bool)) :
    ((buildComparison rows).map (·.1)).Nodup ∧
    ∀ e ∈ buildComparison rows, (e.2.map (·.1)).Nodup := by
  have main : ∀ (rs : List (String × String × Bool))
      (acc : List (String × List (String × Bool))),
      (acc.map (·.1)).Nodup → (∀ e ∈ acc, (e.2.map (·.1)).Nodup) →
      (((rs.foldl
          (fun comp row =>
            alistSet comp row.1
              (alistSet ((alistGet? comp row.1).getD []) row.2.1 row.2.2))
          acc)).map (·.1)).Nodup ∧
      ∀ e ∈ rs.foldl
          (fun comp row =>
            alistSet comp row.1
              (alistSet ((alistGet? comp row.1).getD []) row.2.1 row.2.2))
          acc, (e.2.map (·.1)).Nodup := by
    intro rs
    induction rs with
    | nil => intro acc h1 h2; exact ⟨h1, h2⟩
    | cons r rest ih =>
      intro acc h1 h2
      simp only [List.foldl_cons]
      apply ih
      · exact alistSet_keys_nodup _ _ _ h1
      · intro e he
        rcases alistSet_mem_values _ _ _ _ he with he' | he'
        · exact h2 e he'
        · subst he'
          apply alistSet_keys_nodup
          cases hm : alistGet? acc r.1 with
          | none => simp [hm]
          | some m0 =>
            simp only [hm, Option.getD_some]
            exact h2 (r.1, m0) (alistGet?_mem acc r.1 m0 hm)
  exact main rows [] (by simp) (by simp)

/-- C7: the feature-comparison matrix maps a (service, feature) pair to a
boolean exactly when a feature row for it exists, with the stored value;
pairs with no stored row are absent rather than defaulted, and both the
outer service keys and each service's inner feature keys are duplicate-free,
so every stored pair appears exactly once. -/
theorem claim_C7_feature_comparison (db : DBState) (hwf : Wellformed db) :
    (∀ name fname b,
      comparisonCell (get_feature_comparison db) name fname = some b ↔
        ∃ s ∈ db.services, s.name = name ∧
          ∃ fr ∈ db.features, fr.serviceId = s.id ∧ fr.featureName = fname ∧
            fr.isAvailable = b) ∧
    ((get_feature_comparison db).map (·.1)).Nodup ∧
    (∀ e ∈ get_feature_comparison db, (e.2.map (·.1)).Nodup) := by
  have hnd := comparisonRows_keys_nodup db hwf
  refine ⟨?_, (buildComparison_nodup (comparisonRows db)).1,
    (buildComparison_nodup (comparisonRows db)).2⟩
  intro name fname b
  have hcell : comparisonCell (get_feature_comparison db) name fname
      = rowsCell (comparisonRows db) name fname := by
    unfold get_feature_comparison buildComparison
    rw [buildFold_cell _ _ _ [] hnd]
    cases rowsCell (comparisonRows db) name fname with
    | some b' => rfl
    | none => rfl
  rw [hcell, rowsCell_some_iff _ hnd, comparisonRows_mem]
  constructor
  · rintro ⟨s, hs, fr, hfr, hsid, heq⟩
    simp only [Prod.mk.injEq] at heq
    exact ⟨s, hs, heq.1.symm, fr, hfr, hsid, heq.2.1.symm, heq.2.2.symm⟩
  · rintro ⟨s, hs, hname, fr, hfr, hsid, hfname, hav⟩
    exact ⟨s, hs, fr, hfr, hsid, by simp [hname, hfname, hav]⟩

/-- A store with two services and three feature rows, for concrete checks. -/
def dbWithFeatures : DBState :=
  ⟨[⟨1, "Todoist", "u", none, ["web"], none, 0⟩, ⟨2, "Bear", "v", none, [], none, 0⟩],
   [⟨1, "free_tier", true⟩, ⟨1, "collaboration", false⟩, ⟨2, "free_tier", false⟩],
   [], [], [], [], 3⟩

theorem claim_C7_witness :
    comparisonCell (get_feature_comparison dbWithFeatures) "Todoist" "free_tier"
      = some true ∧
    ((get_feature_comparison dbWithFeatures).map (·.1)).Nodup := by
  have h := claim_C7_feature_comparison dbWithFeatures (by decide)
  exact ⟨(h.1 "Todoist" "free_tier" true).mpr (by decide), h.2.1⟩

/-! ## Claim C6: recommendation filtering -/

/-- The accumulation loop of `recommend_service` is a filter-map over the
    comparison matrix: qualifying services with a ranking row contribute one
    entry, every other service contributes nothing. -/
theorem recommendFold_eq (requirements : List (String × Bool)) (context : String)
    (db : DBState) (comp : List (String × List (String × Bool)))
    (acc : List Recommendation) :
    comp.foldl
      (fun acc entry =>
        if meetsRequirements requirements entry.2 then
          match (get_rankings context db).find?
              (fun r => r.service_name = entry.1) with
          | some r => acc ++ [⟨entry.1, r.score, r.rank⟩]
          | none => acc
        else acc)
      acc
    = acc ++ comp.filterMap
        (fun entry =>
          if meetsRequirements requirements entry.2 then
            ((get_rankings context db).find?
              (fun r => r.service_name = entry.1)).map
              (fun r => ⟨entry.1, r.score, r.rank⟩)
          else none) := by
  induction comp generalizing acc with
  | nil => simp
  | cons entry rest ih =>
    simp only [List.foldl_cons, List.filterMap_cons]
    by_cases hm : meetsRequirements requirements entry.2
    · simp only [hm, if_true]
      cases hfind : (get_rankings context db).find?
          (fun r => r.service_name = entry.1) with
      | some r =>
        simp only [hfind, Option.map_some']
        rw [ih]
        simp
      | none =>
        simp only [hfind, Option.map_none']
        rw [ih]
    · simp only [if_neg hm]
      rw [ih]

/-- C6: `recommend_service` returns exactly the services of the
feature-comparison matrix that satisfy every required (feature, value) pair —
with a missing feature row read as false — and that have a ranking row for
the context (qualifying services with no ranking row are silently dropped);
each returned entry carries a matching ranking row's score and rank, and the
result is sorted in descending order of that stored score. -/
theorem claim_C6_recommend (requirements : List (String × Bool)) (context : String)
    (db : DBState) :
    (∀ e ∈ recommend_service requirements context db,
      (∃ m, (e.name, m) ∈ get_feature_comparison db ∧
         meetsRequirements requirements m = true) ∧
      ∃ r ∈ get_rankings context db,
        r.service_name = e.name ∧ e.score = r.score ∧ e.rank = r.rank) ∧
    (∀ nm m, (nm, m) ∈ get_feature_comparison db →
      meetsRequirements requirements m = true →
      (∃ r ∈ get_rankings context db, r.service_name = nm) →
      ∃ e ∈ recommend_service requirements context db, e.name = nm) ∧
    (recommend_service requirements context db).Pairwise
      (fun a b => b.score ≤ a.score) := by
  have hmem : ∀ e, e ∈ recommend_service requirements context db ↔
      e ∈ (get_feature_comparison db).filterMap
        (fun entry =>
          if meetsRequirements requirements entry.2 then
            ((get_rankings context db).find?
              (fun r => r.service_name = entry.1)).map
              (fun r => ⟨entry.1, r.score, r.rank⟩)
          else none) := by
    intro e
    unfold recommend_service
    rw [(sortBy_perm _ _).mem_iff, recommendFold_eq]
    simp
  refine ⟨?_, ?_, ?_⟩
  · intro e he
    rw [hmem] at he
    rcases List.mem_filterMap.mp he with ⟨entry, hentry, hval⟩
    by_cases hm : meetsRequirements requirements entry.2
    · rw [if_pos hm] at hval
      cases hfind : (get_rankings context db).find?
          (fun r => r.service_name = entry.1) with
      | none => rw [hfind] at hval; cases hval
      | some r =>
        rw [hfind] at hval
        simp only [Option.map_some', Option.some.injEq] at hval
        subst hval
        have hrmem := List.mem_of_find?_eq_some hfind
        have hrpred := List.find?_some hfind
        simp only [decide_eq_true_eq] at hrpred
        exact ⟨⟨entry.2, by simpa using hentry, hm⟩,
          r, hrmem, by simpa using hrpred, rfl, rfl⟩
    · rw [if_neg hm] at hval
      cases hval
  · intro nm m hcomp hm hrank
    rcases hrank with ⟨r', hr', hname'⟩
    have hsome : ((get_rankings context db).find?
        (fun r => r.service_name = nm)).isSome :=
      List.find?_isSome.mpr ⟨r', hr', by simpa using hname'⟩
    obtain ⟨r, hr⟩ := Option.isSome_iff_exists.mp hsome
    refine ⟨⟨nm, r.score, r.rank⟩, ?_, rfl⟩
    rw [hmem]
    apply List.mem_filterMap.mpr
    refine ⟨(nm, m), hcomp, ?_⟩
    rw [if_pos hm, hr]
    rfl
  · unfold recommend_service
    have hp := sortBy_pairwise recommendLe ?_ ?_
      ((get_feature_comparison db).foldl
        (fun acc entry =>
          if meetsRequirements requirements entry.2 then
            match (get_rankings context db).find?
                (fun r => r.service_name = entry.1) with
            | some r => acc ++ [⟨entry.1, r.score, r.rank⟩]
            | none => acc
          else acc)
        [])
    · exact hp.imp (fun h => by simpa [recommendLe] using h)
    · intro a b
      unfold recommendLe
      rcases le_total b.score a.score with h | h
      · exact Or.inl (by simpa using h)
      · exact Or.inr (by simpa using h)
    · intro a b c hab hbc
      unfold recommendLe at hab hbc ⊢
      simp only [decide_eq_true_eq] at hab hbc ⊢
      exact le_trans hbc hab

/-- A store with one service, its feature row and one ranking row. -/
def dbRecommend : DBState :=
  ⟨[⟨1, "Todoist", "u", none, [], none, 0⟩],
   [⟨1, "free_tier", true⟩],
   [], [], [⟨"personal_use", 1, 1, 5, 0⟩], [], 2⟩

theorem claim_C6_witness :
    ∃ e ∈ recommend_service [("free_tier", true)] "personal_use" dbRecommend,
      e.name = "Todoist" := by
  have h := claim_C6_recommend [("free_tier", true)] "personal_use" dbRecommend
  exact h.2.1 "Todoist" [("free_tier", true)] (by decide) (by decide) (by decide)

/-! ## Claim C3: coverage, ordering and ranks of `calculate_rankings` -/

theorem fold_upsertWeight_services (context : String) (w : List (String × Rat))
    (db : DBState) :
    (w.foldl (fun d fw => upsertWeightStmt context fw.1 fw.2 d) db).services
      = db.services := by
  induction w generalizing db with
  | nil => rfl
  | cons fw rest ih => simpa using ih (upsertWeightStmt context fw.1 fw.2 db)

theorem set_feature_weights_services (context : String) (w : List (String × Rat))
    (db : DBState) :
    (set_feature_weights context w db).services = db.services := by
  unfold set_feature_weights
  rw [fold_upsertWeight_services]

theorem resolveWeights_services (context : String)
    (weightsArg : Option (List (String × Rat))) (db : DBState) :
    (resolveWeights context weightsArg db).2.services = db.services := by
  unfold resolveWeights
  cases weightsArg with
  | none => by_cases h : (get_feature_weights context db).isEmpty <;> simp [h]
  | some w =>
    by_cases hw : w.isEmpty
    · by_cases h : (get_feature_weights context db).isEmpty <;> simp [hw, h]
    · simp [hw, set_feature_weights_services]

theorem rankingJoinRows_key_mem (db : DBState) (r : Nat × String × Option (String × Bool))
    (hr : r ∈ rankingJoinRows db) :
    (r.1, r.2.1) ∈ db.services.map (fun s => (s.id, s.name)) := by
  unfold rankingJoinRows at hr
  rw [(sortBy_perm _ _).mem_iff, List.mem_flatMap] at hr
  obtain ⟨s, hs, hr⟩ := hr
  cases hfil : db.features.filter (fun fr => fr.serviceId = s.id) with
  | nil =>
    rw [hfil] at hr
    simp only [List.mem_singleton] at hr
    subst hr
    exact List.mem_map_of_mem _ hs
  | cons f fs =>
    rw [hfil] at hr
    rcases List.mem_map.mp hr with ⟨fr, _, rfl⟩
    exact List.mem_map_of_mem _ hs

theorem rankingJoinRows_cover (db : DBState) (s : ServiceRow) (hs : s ∈ db.services) :
    ∃ r ∈ rankingJoinRows db, r.1 = s.id ∧ r.2.1 = s.name := by
  unfold rankingJoinRows
  have hmem : ∀ r, r ∈ (db.services.flatMap fun s =>
      match db.features.filter (fun fr => fr.serviceId = s.id) with
      | [] => [(s.id, s.name, none)]
      | fs => fs.map fun fr => (s.id, s.name, some (fr.featureName, fr.isAvailable))) →
      r ∈ sortBy (fun a b => !decide (b.2.1 < a.2.1))
        (db.services.flatMap fun s =>
          match db.features.filter (fun fr => fr.serviceId = s.id) with
          | [] => [(s.id, s.name, none)]
          | fs => fs.map fun fr => (s.id, s.name, some (fr.featureName, fr.isAvailable))) := by
    intro r hr
    exact (sortBy_perm _ _).mem_iff.mpr hr
  cases hfil : db.features.filter (fun fr => fr.serviceId = s.id) with
  | nil =>
    refine ⟨(s.id, s.name, none), hmem _ ?_, rfl, rfl⟩
    rw [List.mem_flatMap]
    exact ⟨s, hs, by rw [hfil]; simp⟩
  | cons f fs =>
    refine ⟨(s.id, s.name, some (f.featureName, f.isAvailable)), hmem _ ?_, rfl, rfl⟩
    rw [List.mem_flatMap]
    refine ⟨s, hs, ?_⟩
    rw [hfil]
    exact List.mem_map_of_mem _ (List.mem_cons_self f fs)

/-- One grouping iteration creates one entry per first-seen service id and
    never changes an entry's id or name. -/
theorem groupStep_pairs (acc : List (Nat × String × List (String × Bool)))
    (row : Nat × String × Option (String × Bool)) :
    (groupStep acc row).map (fun e => (e.1, e.2.1))
      = if row.1 ∈ acc.map (fun e => e.1) then acc.map (fun e => (e.1, e.2.1))
        else acc.map (fun e => (e.1, e.2.1)) ++ [(row.1, row.2.1)] := by
  unfold groupStep
  by_cases hmem : row.1 ∈ acc.map (fun e => e.1)
  · have hany : acc.any (fun e => e.1 = row.1) = true := by
      rw [List.any_eq_true]
      rcases List.mem_map.mp hmem with ⟨e, he, heq⟩
      exact ⟨e, he, by simp [heq]⟩
    rw [if_pos hmem]
    simp only [hany, if_true]
    cases hrow : row.2.2 with
    | none => rfl
    | some fb =>
      by_cases hfn : fb.1 = ""
      · simp [hfn]
      · simp only [hfn, if_false, List.map_map]
        apply List.map_congr_left
        intro e _
        by_cases he : e.1 = row.1 <;> simp [he]
  · have hany : acc.any (fun e => e.1 = row.1) = false := by
      rw [List.any_eq_false]
      intro e he
      simp only [decide_eq_true_eq]
      intro heq
      exact hmem (heq ▸ List.mem_map_of_mem _ he)
    rw [if_neg hmem]
    simp only [hany, Bool.false_eq_true, if_false]
    cases hrow : row.2.2 with
    | none => simp
    | some fb =>
      by_cases hfn : fb.1 = ""
      · simp [hfn]
      · simp only [hfn, if_false, List.map_append, List.map_map]
        congr 1
        · apply List.map_congr_left
          intro e _
          by_cases he : e.1 = row.1 <;> simp [he]
        · simp

theorem groupStep_ids (acc : List (Nat × String × List (String × Bool)))
    (row : Nat × String × Option (String × Bool)) :
    (groupStep acc row).map (fun e => e.1)
      = if row.1 ∈ acc.map (fun e => e.1) then acc.map (fun e => e.1)
        else acc.map (fun e => e.1) ++ [row.1] := by
  have h := congrArg (List.map Prod.fst) (groupStep_pairs acc row)
  rw [List.map_map] at h
  by_cases hmem : row.1 ∈ acc.map (fun e => e.1)
  · rw [if_pos hmem] at h
    rw [if_pos hmem]
    rw [List.map_map] at h
    exact h
  · rw [if_neg hmem] at h
    rw [if_neg hmem]
    rw [List.map_append, List.map_map] at h
    simpa using h

theorem groupFold_pairs_sub (rows : List (Nat × String × Option (String × Bool))) :
    ∀ (acc : List (Nat × String × List (String × Bool))) p,
      p ∈ (rows.foldl groupStep acc).map (fun e => (e.1, e.2.1)) →
      p ∈ acc.map (fun e => (e.1, e.2.1)) ∨ p ∈ rows.map (fun r => (r.1, r.2.1)) := by
  induction rows with
  | nil => intro acc p hp; exact Or.inl hp
  | cons row rest ih =>
    intro acc p hp
    simp only [List.foldl_cons] at hp
    rcases ih (groupStep acc row) p hp with hp' | hp'
    · rw [groupStep_pairs] at hp'
      by_cases hmem : row.1 ∈ acc.map (fun e => e.1)
      · rw [if_pos hmem] at hp'
        exact Or.inl hp'
      · rw [if_neg hmem] at hp'
        rcases List.mem_append.mp hp' with hp'' | hp''
        · exact Or.inl hp''
        · simp only [List.mem_singleton] at hp''
          exact Or.inr (by simp [hp''])
    · exact Or.inr (List.mem_cons_of_mem _ hp')

theorem groupFold_ids_nodup (rows : List (Nat × String × Option (String × Bool))) :
    ∀ (acc : List (Nat × String × List (String × Bool))),
      (acc.map (fun e => e.1)).Nodup →
      ((rows.foldl groupStep acc).map (fun e => e.1)).Nodup := by
  induction rows with
  | nil => intro acc h; exact h
  | cons row rest ih =>
    intro acc h
    simp only [List.foldl_cons]
    apply ih
    rw [groupStep_ids]
    by_cases hmem : row.1 ∈ acc.map (fun e => e.1)
    · rw [if_pos hmem]; exact h
    · rw [if_neg hmem]
      rw [List.nodup_append]
      refine ⟨h, by simp, ?_⟩
      intro a ha hb
      simp only [List.mem_singleton] at hb
      exact hmem (hb ▸ ha)

theorem groupFold_ids_mono (rows : List (Nat × String × Option (String × Bool))) :
    ∀ (acc : List (Nat × String × List (String × Bool))) a,
      a ∈ acc.map (fun e => e.1) → a ∈ (rows.foldl groupStep acc).map (fun e => e.1) := by
  induction rows with
  | nil => intro acc a h; exact h
  | cons row rest ih =>
    intro acc a h
    simp only [List.foldl_cons]
    apply ih
    rw [groupStep_ids]
    by_cases hmem : row.1 ∈ acc.map (fun e => e.1)
    · rw [if_pos hmem]; exact h
    · rw [if_neg hmem]; exact List.mem_append_left _ h

theorem groupFold_covers (rows : List (Nat × String × Option (String × Bool))) :
    ∀ (acc : List (Nat × String × List (String × Bool))) r, r ∈ rows →
      r.1 ∈ (rows.foldl groupStep acc).map (fun e => e.1) := by
  induction rows with
  | nil => intro acc r h; cases h
  | cons row rest ih =>
    intro acc r hr
    simp only [List.foldl_cons]
    rcases List.mem_cons.mp hr with rfl | hr
    · apply groupFold_ids_mono
      rw [groupStep_ids]
      by_cases hmem : r.1 ∈ acc.map (fun e => e.1)
      · rw [if_pos hmem]; exact hmem
      · rw [if_neg hmem]
        exact List.mem_append_right _ (by simp)
    · exact ih (groupStep acc row) r hr

theorem assignRanks_length (i : Nat) (l : List ScoreEntry) :
    (assignRanks i l).length = l.length := by
  induction l generalizing i with
  | nil => rfl
  | cons e es ih => simp [assignRanks, ih]

theorem assignRanks_get (i : Nat) (l : List ScoreEntry) (j : Nat)
    (h : j < (assignRanks i l).length) (h' : j < l.length) :
    (assignRanks i l).get ⟨j, h⟩ = { l.get ⟨j, h'⟩ with rank := i + j } := by
  induction l generalizing i j with
  | nil => cases h'
  | cons e es ih =>
    cases j with
    | zero => simp [assignRanks]
    | succ j =>
      have hj : j < (assignRanks (i + 1) es).length := by
        rw [assignRanks_length]
        exact Nat.lt_of_succ_lt_succ h'
      have hj' : j < es.length := Nat.lt_of_succ_lt_succ h'
      show (assignRanks (i + 1) es).get ⟨j, hj⟩ = _
      rw [ih (i + 1) j hj hj']
      have : i + 1 + j = i + (j + 1) := by omega
      rw [this]
      rfl

theorem assignRanks_map_pair (i : Nat) (l : List ScoreEntry) :
    (assignRanks i l).map (fun e => (e.service_id, e.service_name))
      = l.map (fun e => (e.service_id, e.service_name)) := by
  induction l generalizing i with
  | nil => rfl
  | cons e es ih => simp [assignRanks, ih]

theorem assignRanks_map_score (i : Nat) (l : List ScoreEntry) :
    (assignRanks i l).map (·.score) = l.map (·.score) := by
  induction l generalizing i with
  | nil => rfl
  | cons e es ih => simp [assignRanks, ih]

theorem mem_fst_unique (l : List (Nat × String)) (hnd : (l.map (·.1)).Nodup)
    (p1 p2 : Nat × String) (h1 : p1 ∈ l) (h2 : p2 ∈ l) (hk : p1.1 = p2.1) :
    p1 = p2 := by
  induction l with
  | nil => cases h1
  | cons s rest ih =>
    simp only [List.map_cons, List.nodup_cons] at hnd
    rcases List.mem_cons.mp h1 with rfl | h1m
    · rcases List.mem_cons.mp h2 with rfl | h2m
      · rfl
      · exact absurd (by rw [hk]; exact List.mem_map_of_mem _ h2m) hnd.1
    · rcases List.mem_cons.mp h2 with rfl | h2m
      · exact absurd (by rw [← hk]; exact List.mem_map_of_mem _ h1m) hnd.1
      · exact ih hnd.2 h1m h2m

/-- C3: the list returned by `calculate_rankings` covers every service in the
store exactly once (services with zero feature rows included, via the left
join), is sorted in descending score order, assigns dense 1-based ranks
`1..N` positionally, and therefore a strictly greater score always means a
strictly smaller rank. -/
theorem claim_C3_ranking_order (context : String)
    (weightsArg : Option (List (String × Rat))) (now : Nat) (db : DBState)
    (hwf : Wellformed db) :
    List.Perm
      (((calculate_rankings context weightsArg now db).1).map
        (fun e => (e.service_id, e.service_name)))
      (db.services.map (fun s => (s.id, s.name))) ∧
    ((calculate_rankings context weightsArg now db).1).Pairwise
      (fun a b => b.score ≤ a.score) ∧
    (∀ i (hi : i < ((calculate_rankings context weightsArg now db).1).length),
      (((calculate_rankings context weightsArg now db).1).get ⟨i, hi⟩).rank = i + 1) ∧
    (∀ i j (hi : i < ((calculate_rankings context weightsArg now db).1).length)
        (hj : j < ((calculate_rankings context weightsArg now db).1).length),
      (((calculate_rankings context weightsArg now db).1).get ⟨j, hj⟩).score
        < (((calculate_rankings context weightsArg now db).1).get ⟨i, hi⟩).score →
      (((calculate_rankings context weightsArg now db).1).get ⟨i, hi⟩).rank
        < (((calculate_rankings context weightsArg now db).1).get ⟨j, hj⟩).rank) := by
  have hserv : (resolveWeights context weightsArg db).2.services = db.services :=
    resolveWeights_services _ _ _
  have hrs : (calculate_rankings context weightsArg now db).1
      = assignRanks 1 (sortBy scoreLe
          ((groupServices (rankingJoinRows (resolveWeights context weightsArg db).2)).map
            (fun e => ⟨e.1, e.2.1,
              computeScore (resolveWeights context weightsArg db).1 e.2.2, 0⟩))) := rfl
  rw [hrs]
  have htot : ∀ a b : ScoreEntry, scoreLe a b = true ∨ scoreLe b a = true := by
    intro a b
    unfold scoreLe
    rcases le_total b.score a.score with h | h
    · exact Or.inl (by simpa using h)
    · exact Or.inr (by simpa using h)
  have htrans : ∀ a b c : ScoreEntry,
      scoreLe a b = true → scoreLe b c = true → scoreLe a c = true := by
    intro a b c hab hbc
    unfold scoreLe at hab hbc ⊢
    simp only [decide_eq_true_eq] at hab hbc ⊢
    exact le_trans hbc hab
  have hids := groupFold_ids_nodup
    (rankingJoinRows (resolveWeights context weightsArg db).2) [] (by simp)
  have hpairs_nodup :
      ((groupServices (rankingJoinRows (resolveWeights context weightsArg db).2)).map
        (fun e => (e.1, e.2.1))).Nodup := by
    apply List.Nodup.of_map Prod.fst
    rw [List.map_map]
    exact hids
  have hserv_nodup : (db.services.map (fun s => (s.id, s.name))).Nodup := by
    apply List.Nodup.of_map Prod.fst
    rw [List.map_map]
    exact hwf.1
  have hfwd : ∀ p,
      p ∈ (groupServices (rankingJoinRows (resolveWeights context weightsArg db).2)).map
        (fun e => (e.1, e.2.1)) →
      p ∈ db.services.map (fun s => (s.id, s.name)) := by
    intro p hp
    rcases groupFold_pairs_sub _ [] p hp with h | h
    · cases h
    · rcases List.mem_map.mp h with ⟨r, hr, rfl⟩
      have := rankingJoinRows_key_mem _ r hr
      rwa [hserv] at this
  have hmemiff : ∀ p,
      p ∈ (groupServices (rankingJoinRows (resolveWeights context weightsArg db).2)).map
        (fun e => (e.1, e.2.1)) ↔
      p ∈ db.services.map (fun s => (s.id, s.name)) := by
    intro p
    refine ⟨hfwd p, ?_⟩
    intro hp
    rcases List.mem_map.mp hp with ⟨s, hs, rfl⟩
    have hs1 : s ∈ (resolveWeights context weightsArg db).2.services := by
      rw [hserv]; exact hs
    obtain ⟨r, hr, hr1, hr2⟩ := rankingJoinRows_cover _ s hs1
    have hid := groupFold_covers _ [] r hr
    rcases List.mem_map.mp hid with ⟨e, heE, hei⟩
    have hpE : (e.1, e.2.1)
        ∈ (groupServices (rankingJoinRows (resolveWeights context weightsArg db).2)).map
          (fun e => (e.1, e.2.1)) := List.mem_map_of_mem _ heE
    have hpS := hfwd _ hpE
    have hfst : ((e.1, e.2.1) : Nat × String).1 = ((s.id, s.name) : Nat × String).1 := by
      simp [hei, hr1]
    have := mem_fst_unique (db.services.map (fun s => (s.id, s.name)))
      (by rw [List.map_map]; exact hwf.1) _ _ hpS hp hfst
    rw [← this]
    exact hpE
  have hperm := (List.perm_ext_iff_of_nodup hpairs_nodup hserv_nodup).mpr hmemiff
  refine ⟨?_, ?_, ?_, ?_⟩
  · rw [assignRanks_map_pair]
    refine List.Perm.trans ?_ hperm
    refine List.Perm.trans (List.Perm.map _ (sortBy_perm _ _)) ?_
    rw [List.map_map]
    exact List.Perm.refl _
  · have hsort := sortBy_pairwise scoreLe htot htrans
      ((groupServices (rankingJoinRows (resolveWeights context weightsArg db).2)).map
        (fun e => ⟨e.1, e.2.1,
          computeScore (resolveWeights context weightsArg db).1 e.2.2, 0⟩))
    have h1 : ((assignRanks 1 (sortBy scoreLe
        ((groupServices (rankingJoinRows (resolveWeights context weightsArg db).2)).map
          (fun e => ⟨e.1, e.2.1,
            computeScore (resolveWeights context weightsArg db).1 e.2.2, 0⟩)))).map
        (·.score)).Pairwise (fun x y : Rat => y ≤ x) := by
      rw [assignRanks_map_score]
      rw [List.pairwise_map]
      exact hsort.imp (by
        intro a b h
        simpa [scoreLe] using h)
    rw [List.pairwise_map] at h1
    exact h1
  · intro i hi
    have hi' : i < (sortBy scoreLe
        ((groupServices (rankingJoinRows (resolveWeights context weightsArg db).2)).map
          (fun e => ⟨e.1, e.2.1,
            computeScore (resolveWeights context weightsArg db).1 e.2.2, 0⟩))).length := by
      rw [assignRanks_length] at hi
      exact hi
    rw [assignRanks_get 1 _ i hi hi']
    show 1 + i = i + 1
    omega
  · intro i j hi hj hlt
    have hlen := assignRanks_length 1 (sortBy scoreLe
      ((groupServices (rankingJoinRows (resolveWeights context weightsArg db).2)).map
        (fun e => ⟨e.1, e.2.1,
          computeScore (resolveWeights context weightsArg db).1 e.2.2, 0⟩)))
    have hi' : i < (sortBy scoreLe
        ((groupServices (rankingJoinRows (resolveWeights context weightsArg db).2)).map
          (fun e => ⟨e.1, e.2.1,
            computeScore (resolveWeights context weightsArg db).1 e.2.2, 0⟩))).length := by
      rw [← hlen]; exact hi
    have hj' : j < (sortBy scoreLe
        ((groupServices (rankingJoinRows (resolveWeights context weightsArg db).2)).map
          (fun e => ⟨e.1, e.2.1,
            computeScore (resolveWeights context weightsArg db).1 e.2.2, 0⟩))).length := by
      rw [← hlen]; exact hj
    rw [assignRanks_get 1 _ i hi hi', assignRanks_get 1 _ j hj hj'] at hlt ⊢
    simp only at hlt ⊢
    have hsort := sortBy_pairwise scoreLe htot htrans
      ((groupServices (rankingJoinRows (resolveWeights context weightsArg db).2)).map
        (fun e => ⟨e.1, e.2.1,
          computeScore (resolveWeights context weightsArg db).1 e.2.2, 0⟩))
    rw [List.pairwise_iff_get] at hsort
    have hij : i < j := by
      by_contra hne
      rcases Nat.lt_trichotomy i j with h | h | h
      · exact hne h
      · subst h
        exact absurd hlt (lt_irrefl _)
      · have := hsort ⟨j, hj'⟩ ⟨i, hi'⟩ h
        simp only [scoreLe, decide_eq_true_eq] at this
        exact absurd (lt_of_lt_of_le hlt this) (lt_irrefl _)
    omega

theorem claim_C3_witness :
    ∃ h : 0 < ((calculate_rankings "personal_use" none 0 dbWithFeatures).1).length,
      (((calculate_rankings "personal_use" none 0 dbWithFeatures).1).get ⟨0, h⟩).rank
        = 1 := by
  have h := claim_C3_ranking_order "personal_use" none 0 dbWithFeatures (by decide)
  have hlen : ((calculate_rankings "personal_use" none 0 dbWithFeatures).1).length
      = dbWithFeatures.services.length := by
    have := h.1.length_eq
    rwa [List.length_map, List.length_map] at this
  have h0 : 0 < ((calculate_rankings "personal_use" none 0 dbWithFeatures).1).length := by
    rw [hlen]
    decide
  exact ⟨h0, h.2.2.1 0 h0⟩

end AnalytixHub
